import Mathlib

/-!
# k8smeetup: review statistics of an organization's members

A shallow embedding of `k8smeetup.go` and of the part of Go's `sort` package it
runs, followed by the properties proved about it.

* Part 1: data model, the `sort.Interface` of `byReviewd`, `sort.Sort`.
* Part 2: the GitHub client, the tab writer, the process state and `main`.
* Part 3: lemmas and theorems.
-/

set_option autoImplicit false

namespace K8smeetup

/-! ## Part 1: records, comparator, sorting -/

/-- Organization: the constant `Organization = "k8smeetup"`. -/
def Organization : String := "k8smeetup"

/-- Repository: the constant `Repository = "kubernetes.github.io"`. -/
def Repository : String := "kubernetes.github.io"

/-- Contributes: one record per organization member (`type Contributes struct`). -/
structure Contributes where
  login : String
  name : String
  company : String
  email : String
  reviews : Int
deriving DecidableEq, Repr, Inhabited

/-- The slice type `byReviewd []Contributes`. -/
abbrev byReviewd : Type := List Contributes

/-- Indexing `a[i]` of a slice. Go panics outside `0 ≤ i < len(a)`; the model
returns the zero record there (the sort below never leaves the slice). -/
def byReviewd.at (a : byReviewd) (i : Nat) : Contributes := a.getD i default

/-- `func (a byReviewd) Len() int { return len(a) }` -/
def byReviewd.Len (a : byReviewd) : Nat := a.length

/-- `func (a byReviewd) Swap(i, j int) { a[i], a[j] = a[j], a[i] }` -/
def byReviewd.Swap (a : byReviewd) (i j : Nat) : byReviewd :=
  (a.set i (a.at j)).set j (a.at i)

/-- `func (a byReviewd) Less(i, j int) bool { return a[i].reviews >= (a[j].reviews) }` -/
def byReviewd.Less (a : byReviewd) (i j : Nat) : Bool :=
  decide ((a.at i).reviews ≥ (a.at j).reviews)

/-- Go's `sort.Interface`: the three methods `sort.Sort` drives a collection
through, with the collection `D` passed explicitly. -/
structure Interface (D : Type) where
  Len : D → Nat
  Less : D → Nat → Nat → Bool
  Swap : D → Nat → Nat → D

/-- The method set of `byReviewd` as a `sort.Interface`. -/
def byReviewdInterface : Interface byReviewd :=
  ⟨byReviewd.Len, byReviewd.Less, byReviewd.Swap⟩

/-! ### `sort.Sort` (Go standard library, `sort/sort.go`)

The program is written against the go-github API of 2017 (`context` argument,
`int` user ids); the `sort.Sort` of the Go releases of that time (1.7 to 1.18) is
the quicksort below, with insertion sort for short ranges and heapsort as the
depth-limit fallback. Loops are unrolled over a counter computed from their bounds. -/

section sortpkg
variable {D : Type}

/-- Inner loop of `insertionSort`:
`for j := i; j > a && data.Less(j, j-1); j-- { data.Swap(j, j-1) }`. -/
def insertionInner (I : Interface D) (a : Nat) : Nat → D → D
  | 0, d => d
  | j + 1, d =>
    if a < j + 1 && I.Less d (j + 1) j then insertionInner I a j (I.Swap d (j + 1) j) else d

/-- Outer loop of `insertionSort`: `for i := a + 1; i < b; i++ { ... }`,
with `n` the iterations still allowed. -/
def insertionOuter (I : Interface D) (a b : Nat) : Nat → Nat → D → D
  | 0, _, d => d
  | n + 1, i, d =>
    if i < b then insertionOuter I a b n (i + 1) (insertionInner I a i d) else d

/-- `func insertionSort(data Interface, a, b int)`. -/
def insertionSort (I : Interface D) (d : D) (a b : Nat) : D :=
  insertionOuter I a b (b - (a + 1)) (a + 1) d

/-- The loop of `siftDown`, from `root`, with `n` the iterations still allowed. -/
def siftDownLoop (I : Interface D) (hi first : Nat) : Nat → Nat → D → D
  | 0, _, d => d
  | n + 1, root, d =>
    let child := 2 * root + 1
    if child ≥ hi then d
    else
      let child := if child + 1 < hi && I.Less d (first + child) (first + child + 1)
        then child + 1 else child
      if !I.Less d (first + root) (first + child) then d
      else siftDownLoop I hi first n child (I.Swap d (first + root) (first + child))

/-- `func siftDown(data Interface, lo, hi, first int)`. -/
def siftDown (I : Interface D) (d : D) (lo hi first : Nat) : D :=
  siftDownLoop I hi first hi lo d

/-- First loop of `heapSort`: `for i := (hi - 1) / 2; i >= 0; i-- { siftDown(data, i, hi, first) }`;
the argument is `i + 1`. -/
def heapBuild (I : Interface D) (hi first : Nat) : Nat → D → D
  | 0, d => d
  | i + 1, d => heapBuild I hi first i (siftDown I d i hi first)

/-- Second loop of `heapSort`:
`for i := hi - 1; i >= 0; i-- { data.Swap(first, first+i); siftDown(data, lo, i, first) }`;
the argument is `i + 1`. -/
def heapPop (I : Interface D) (first : Nat) : Nat → D → D
  | 0, d => d
  | i + 1, d => heapPop I first i (siftDown I (I.Swap d first (first + i)) 0 i first)

/-- `func heapSort(data Interface, a, b int)`. -/
def heapSort (I : Interface D) (d : D) (a b : Nat) : D :=
  let first := a
  let hi := b - a
  heapPop I first hi (heapBuild I hi first ((hi - 1) / 2 + 1) d)

/-- `func medianOfThree(data Interface, m1, m0, m2 int)`. -/
def medianOfThree (I : Interface D) (d : D) (m1 m0 m2 : Nat) : D :=
  let d := if I.Less d m1 m0 then I.Swap d m1 m0 else d
  if I.Less d m2 m1 then
    let d := I.Swap d m2 m1
    if I.Less d m1 m0 then I.Swap d m1 m0 else d
  else d

/-- `for ; a < c && data.Less(a, pivot); a++ {}`: the final `a`. -/
def scanLess (I : Interface D) (d : D) (pivot c : Nat) : Nat → Nat → Nat
  | 0, a => a
  | n + 1, a => if a < c && I.Less d a pivot then scanLess I d pivot c n (a + 1) else a

/-- `for ; b < c && !data.Less(pivot, b); b++ {}`: the final `b`. -/
def scanNotGreater (I : Interface D) (d : D) (pivot c : Nat) : Nat → Nat → Nat
  | 0, b => b
  | n + 1, b => if b < c && !I.Less d pivot b then scanNotGreater I d pivot c n (b + 1) else b

/-- `for ; b < c && data.Less(pivot, c-1); c-- {}`: the final `c`. -/
def scanGreater (I : Interface D) (d : D) (pivot b : Nat) : Nat → Nat
  | 0 => 0
  | c + 1 => if b < c + 1 && I.Less d pivot c then scanGreater I d pivot b c else c + 1

/-- `for ; a < b && !data.Less(b-1, pivot); b-- {}`: the final `b`. -/
def scanEqualDown (I : Interface D) (d : D) (pivot a : Nat) : Nat → Nat
  | 0 => 0
  | b + 1 => if a < b + 1 && !I.Less d b pivot then scanEqualDown I d pivot a b else b + 1

/-- The partitioning loop of `doPivot`
(`for { scan b up; scan c down; if b >= c { break }; data.Swap(b, c-1); b++; c-- }`). -/
def pivotLoop (I : Interface D) (pivot : Nat) : Nat → D → Nat → Nat → D × Nat × Nat
  | 0, d, b, c => (d, b, c)
  | n + 1, d, b, c =>
    let b := scanNotGreater I d pivot c (c - b) b
    let c := scanGreater I d pivot b c
    if b ≥ c then (d, b, c)
    else pivotLoop I pivot n (I.Swap d b (c - 1)) (b + 1) (c - 1)

/-- The duplicate-protection loop of `doPivot`
(`for { scan b down; scan a up; if a >= b { break }; data.Swap(a, b-1); a++; b-- }`). -/
def protectLoop (I : Interface D) (pivot : Nat) : Nat → D → Nat → Nat → D × Nat × Nat
  | 0, d, a, b => (d, a, b)
  | n + 1, d, a, b =>
    let b := scanEqualDown I d pivot a b
    let a := scanLess I d pivot b (b - a) a
    if a ≥ b then (d, a, b)
    else protectLoop I pivot n (I.Swap d a (b - 1)) (a + 1) (b - 1)

/-- The block of `doPivot` that tests three points for equality with the pivot
(`if !protect && hi-c < (hi-lo)/4 { ... protect = dups > 1 }`); returns the data,
`b`, `c` and `dups`. -/
def dupsProbe (I : Interface D) (d : D) (pivot hi m b c : Nat) : D × Nat × Nat × Nat :=
  let r1 : D × Nat × Nat :=
    if !I.Less d pivot (hi - 1) then (I.Swap d c (hi - 1), c + 1, 1) else (d, c, 0)
  let d := r1.1
  let c := r1.2.1
  let dups := r1.2.2
  let r2 : Nat × Nat := if !I.Less d (b - 1) pivot then (b - 1, dups + 1) else (b, dups)
  let b := r2.1
  let dups := r2.2
  if !I.Less d m pivot then (I.Swap d m (b - 1), b - 1, c, dups + 1) else (d, b, c, dups)

/-- `func doPivot(data Interface, lo, hi int) (midlo, midhi int)`. -/
def doPivot (I : Interface D) (d : D) (lo hi : Nat) : D × Nat × Nat :=
  let m := lo + (hi - lo) / 2
  let d :=
    if hi - lo > 40 then
      let s := (hi - lo) / 8
      let d := medianOfThree I d lo (lo + s) (lo + 2 * s)
      let d := medianOfThree I d m (m - s) (m + s)
      medianOfThree I d (hi - 1) (hi - 1 - s) (hi - 1 - 2 * s)
    else d
  let d := medianOfThree I d lo m (hi - 1)
  let pivot := lo
  let a := scanLess I d pivot (hi - 1) (hi - 1 - (lo + 1)) (lo + 1)
  let r := pivotLoop I pivot (hi - 1 - a + 1) d a (hi - 1)
  let d := r.1
  let b := r.2.1
  let c := r.2.2
  let q : (D × Nat × Nat) × Bool :=
    if !(decide (hi - c < 5)) && decide (hi - c < (hi - lo) / 4) then
      let t := dupsProbe I d pivot hi m b c
      ((t.1, t.2.1, t.2.2.1), decide (t.2.2.2 > 1))
    else ((d, b, c), decide (hi - c < 5))
  let d := q.1.1
  let b := q.1.2.1
  let c := q.1.2.2
  let u : D × Nat × Nat := if q.2 then protectLoop I pivot (b - a + 1) d a b else (d, a, b)
  let d := u.1
  let b := u.2.2
  (I.Swap d pivot (b - 1), b - 1, c)

/-- The tail of `quickSort` for a range of at most 12 elements: one ShellSort pass
with gap 6 (`for i := a + 6; i < b; i++ { if data.Less(i, i-6) { data.Swap(i, i-6) } }`). -/
def shellPass (I : Interface D) (b : Nat) : Nat → Nat → D → D
  | 0, _, d => d
  | n + 1, i, d =>
    if i < b then shellPass I b n (i + 1) (if I.Less d i (i - 6) then I.Swap d i (i - 6) else d)
    else d

/-- `func quickSort(data Interface, a, b, maxDepth int)`. The `for b-a > 12` loop
continues on the larger half with the decremented depth, which is the call
`quickSort(data, a, b, maxDepth)` on that half; the recursion is on `maxDepth`. -/
def quickSort (I : Interface D) : Nat → D → Nat → Nat → D
  | 0, d, a, b =>
    if b - a > 12 then heapSort I d a b
    else if b - a > 1 then insertionSort I (shellPass I b (b - (a + 6)) (a + 6) d) a b
    else d
  | maxDepth + 1, d, a, b =>
    if b - a > 12 then
      let r := doPivot I d a b
      let mlo := r.2.1
      let mhi := r.2.2
      if mlo - a < b - mhi then quickSort I maxDepth (quickSort I maxDepth r.1 a mlo) mhi b
      else quickSort I maxDepth (quickSort I maxDepth r.1 mhi b) a mlo
    else if b - a > 1 then insertionSort I (shellPass I b (b - (a + 6)) (a + 6) d) a b
    else d

/-- The loop of `maxDepth`: `for i := n; i > 0; i >>= 1 { depth++ }`. -/
def maxDepthLoop : Nat → Nat → Nat → Nat
  | 0, _, depth => depth
  | k + 1, i, depth => if i > 0 then maxDepthLoop k (i / 2) (depth + 1) else depth

/-- `func maxDepth(n int) int`: `2*ceil(lg(n+1))`. -/
def maxDepth (n : Nat) : Nat := maxDepthLoop n n 0 * 2

/-- `func Sort(data Interface)` of package `sort` (`Sort` alone is a reserved word here). -/
def sortSort (I : Interface D) (d : D) : D :=
  let n := I.Len d
  quickSort I (maxDepth n) d 0 n

end sortpkg

/-! ## Part 2: the GitHub client, the process and `main` -/

/-- Go `error` values, carried as their message. -/
abbrev Error : Type := String

/-- `github.Rate`; `Reset` is an instant in nanoseconds since the Unix epoch. -/
structure Rate where
  Limit : Int
  Remaining : Int
  Reset : Int
deriving DecidableEq, Repr

/-- `github.RateLimits`. -/
structure RateLimits where
  Core : Rate
  Search : Rate
deriving DecidableEq, Repr

/-- `github.User`, the fields the program reads (all pointers, hence optional). -/
structure User where
  ID : Option Int
  Login : Option String
  Name : Option String
  Company : Option String
  Email : Option String
deriving DecidableEq, Repr

/-- `github.IssuesSearchResult`: the total of the result set and the issues
enumerated in this response (by title). -/
structure IssuesSearchResult where
  Total : Option Int
  Issues : List String
deriving DecidableEq, Repr

/-- `func (i *IssuesSearchResult) GetTotal() int`: `Total` if present, else zero. -/
def IssuesSearchResult.GetTotal (r : IssuesSearchResult) : Int :=
  match r.Total with
  | some t => t
  | none => 0

/-- `github.ListMembersOptions`, the two fields the program sets. -/
structure ListMembersOptions where
  Filter : String
  Role : String
deriving DecidableEq, Repr

/-- What the program runs against: the four GitHub endpoints it calls, the clock and
`time.Sleep`, over an outside-world state `σ` that every call may change. -/
structure Env (σ : Type) where
  RateLimits : σ → Except Error RateLimits × σ
  ListMembers : String → ListMembersOptions → σ → Except Error (List User) × σ
  GetByID : Int → σ → Except Error User × σ
  SearchIssues : String → σ → Except Error IssuesSearchResult × σ
  Now : σ → Int
  Sleep : Int → σ → σ

/-- One interaction with the outside world, as recorded in the trace of a run;
`ok` is false when the call returned an error. -/
inductive Event where
  | RateLimits (ok : Bool)
  | ListMembers (org : String) (opt : ListMembersOptions) (ok : Bool)
  | GetByID (id : Int) (ok : Bool)
  | SearchIssues (query : String) (ok : Bool)
  | Sleep (d : Int)
deriving DecidableEq, Repr

/-- `text/tabwriter.Writer`: the parameters given to `tabwriter.NewWriter` and the text
written so far, one entry for each write. What the writer does with the text is
`TabWriter.Flush` below. -/
structure TabWriter where
  minwidth : Nat
  tabwidth : Nat
  padding : Nat
  padchar : Char
  flags : Nat
  buf : List String
deriving DecidableEq, Repr

/-- `tabwriterMinWidth`. -/
def tabwriterMinWidth : Nat := 10

/-- `tabwriterWidth`. -/
def tabwriterWidth : Nat := 4

/-- `tabwriterPadding`. -/
def tabwriterPadding : Nat := 3

/-- `tabwriterPadChar`. -/
def tabwriterPadChar : Char := ' '

/-- `tabwriterFlags`. -/
def tabwriterFlags : Nat := 0

/-- `func GetNewTabWriter(output io.Writer) *tabwriter.Writer`. -/
def GetNewTabWriter : TabWriter :=
  ⟨tabwriterMinWidth, tabwriterWidth, tabwriterPadding, tabwriterPadChar, tabwriterFlags, []⟩

/-- `fmt.Fprintf(w, ...)` on a tab writer, with the formatted text `s`. The writer holds
the text; writing to standard output is taken to succeed, so no error is reported. -/
def Fprintf (w : TabWriter) (s : String) : TabWriter × Option Error :=
  ({ w with buf := w.buf ++ [s] }, none)

/-! ### `text/tabwriter` (Go standard library), for a writer with `flags = 0`

The text written is cut into cells ended by a tab or a vertical tab and lines ended by a
newline or a form feed; tab-terminated cells of consecutive lines form a column, whose cells
are padded to a common width. Text is kept as lists of characters; the escape byte `0xff`
cannot occur in it (it is no byte of UTF-8 text). -/

/-- `type cell struct`: the text of the cell (its `width` is the number of characters), and
whether a horizontal tab ended it. -/
structure Cell where
  text : List Char
  htab : Bool
deriving DecidableEq, Repr

/-- `func (b *Writer) writePadding(textw, cellw int, useTabs bool)` with `useTabs` false:
the padding that follows a cell of width `textw` in a column of width `cellw`. -/
def writePadding (w : TabWriter) (textw cellw : Nat) : List Char :=
  if w.padchar = '\t' then
    if w.tabwidth = 0 then []
    else
      let cellw := (cellw + w.tabwidth - 1) / w.tabwidth * w.tabwidth
      List.replicate ((cellw - textw + w.tabwidth - 1) / w.tabwidth) '\t'
  else List.replicate (cellw - textw) w.padchar

/-- The loop over the cells of one line in `writeLines` (`for j, c := range line`): the text
of each cell, padded when its column `j` has a width. -/
def writeCells (w : TabWriter) (widths : List Nat) : Nat → List Cell → List Char
  | _, [] => []
  | j, c :: rest =>
    c.text ++ (if j < widths.length then writePadding w c.text.length (widths.getD j 0) else [])
      ++ writeCells w widths (j + 1) rest

/-- `func (b *Writer) writeLines(pos0 int, line0, line1 int)`: every line is followed by a
newline except the last line the writer holds (`atEnd` says that the lines given end with
it). -/
def writeLines (w : TabWriter) (widths : List Nat) : List (List Cell) → Bool → List Char
  | [], _ => []
  | [line], atEnd => writeCells w widths 0 line ++ (if atEnd then [] else ['\n'])
  | line :: rest, atEnd => writeCells w widths 0 line ++ ['\n'] ++ writeLines w widths rest atEnd

/-- The width of a column block in `format`: `width := b.minwidth`, then for each cell of
the block `if w := c.width + b.padding; w > width { width = w }`. -/
def blockWidth (w : TabWriter) (column : Nat) (block : List (List Cell)) : Nat :=
  block.foldl (fun width line =>
    if ((line.getD column ⟨[], false⟩).text.length + w.padding > width)
    then (line.getD column ⟨[], false⟩).text.length + w.padding else width) w.minwidth

/-- The loop of `format` over the lines `line0 ≤ this < line1`, for the column
`len(b.widths)`: `pending` are the lines not printed yet, `block` the column block being
collected, `deeper` the recursive call of `format` with one more width. A line has a cell in
the column when `column < len(line)-1`. -/
def formatLoop (w : TabWriter) (deeper : List Nat → List (List Cell) → Bool → List Char)
    (widths : List Nat) :
    List (List Cell) → Option (List (List Cell)) → List (List Cell) → Bool → List Char
  | pending, none, [], atEnd => writeLines w widths pending atEnd
  | _, some block, [], atEnd =>
    deeper (widths ++ [blockWidth w widths.length block]) block atEnd
  | pending, none, line :: rest, atEnd =>
    if widths.length + 1 < line.length then
      writeLines w widths pending false ++ formatLoop w deeper widths [] (some [line]) rest atEnd
    else formatLoop w deeper widths (pending ++ [line]) none rest atEnd
  | pending, some block, line :: rest, atEnd =>
    if widths.length + 1 < line.length then
      formatLoop w deeper widths pending (some (block ++ [line])) rest atEnd
    else
      deeper (widths ++ [blockWidth w widths.length block]) block false
        ++ formatLoop w deeper widths [line] none rest atEnd

/-- `func (b *Writer) format(pos0 int, line0, line1 int)` on the lines given, with the widths
of the columns to the left; the first argument bounds the depth of the recursion, one
level for each column. -/
def format (w : TabWriter) : Nat → List Nat → List (List Cell) → Bool → List Char
  | 0, widths, lines, atEnd => writeLines w widths lines atEnd
  | depth + 1, widths, lines, atEnd =>
    formatLoop w (fun ws ls e => format w depth ws ls e) widths [] none lines atEnd

/-- The state of a `tabwriter.Writer` between two bytes: the finished lines it holds, the
line and the cell being collected, and what it has passed on to its output. -/
structure TabState where
  lines : List (List Cell)
  line : List Cell
  cell : List Char
  out : List Char
deriving DecidableEq, Repr

/-- The longest line, in cells: no column lies beyond it. -/
def maxCells (lines : List (List Cell)) : Nat :=
  lines.foldl (fun n line => max n line.length) 0

/-- `func (b *Writer) Flush()`: the cell being collected, if not empty, ends the last line;
everything held is formatted and passed on, and the writer starts afresh. -/
def TabState.flush (w : TabWriter) (st : TabState) : TabState :=
  let line := if st.cell.isEmpty then st.line else st.line ++ [⟨st.cell, false⟩]
  let lines := st.lines ++ [line]
  { lines := [], line := [], cell := [], out := st.out ++ format w (maxCells lines) [] lines true }

/-- One byte of `func (b *Writer) Write(buf []byte)`: a tab, vertical tab, newline or form
feed ends the cell; a newline or form feed also ends the line, and the writer flushes after a
form feed or a line of a single cell. -/
def TabState.step (w : TabWriter) (st : TabState) (ch : Char) : TabState :=
  if ch = '\t' ∨ ch = '\x0b' ∨ ch = '\n' ∨ ch = '\x0c' then
    let line := st.line ++ [⟨st.cell, decide (ch = '\t')⟩]
    if ch = '\n' ∨ ch = '\x0c' then
      if ch = '\x0c' ∨ line.length = 1 then
        TabState.flush w { lines := st.lines ++ [line], line := [], cell := [], out := st.out }
      else { lines := st.lines ++ [line], line := [], cell := [], out := st.out }
    else { lines := st.lines, line := line, cell := [], out := st.out }
  else { lines := st.lines, line := st.line, cell := st.cell ++ [ch], out := st.out }

/-- What the writer passes on to its output, from its creation to the `Flush()`, for the
text written to it. -/
def TabWriter.Flush (w : TabWriter) : String :=
  String.mk (TabState.flush w
    ((w.buf.map String.data).flatten.foldl (TabState.step w) ⟨[], [], [], []⟩)).out

/-- What reaches standard output: text printed directly (`fmt.Printf`, `fmt.Println`), or
a tab writer flushed to it, kept as the writer with the text that was written to it; the
characters it prints are `Output.bytes`. -/
inductive Output where
  | text (s : String)
  | table (w : TabWriter)
deriving DecidableEq, Repr

/-- The characters a piece of output puts on standard output. -/
def Output.bytes : Output → String
  | .text s => s
  | .table w => w.Flush

/-- The state of a run: outside world, trace of interactions, standard output. -/
structure Proc (σ : Type) where
  world : σ
  trace : List Event
  stdout : List Output

/-- All the characters on standard output, in order. -/
def Proc.stdoutText {σ : Type} (p : Proc σ) : String :=
  String.join (p.stdout.map Output.bytes)

/-- How a piece of the program ends: it returns a value, or the process exits
(`os.Exit(code)`, or status 2 on a nil-pointer panic). -/
inductive Res (σ α : Type) where
  | ret (v : α) (p : Proc σ)
  | exit (code : Nat) (p : Proc σ)

/-- The run state at the end. -/
def Res.proc {σ α : Type} : Res σ α → Proc σ
  | .ret _ p => p
  | .exit _ p => p

/-- The exit status of the process when `main` ends this way: 0 on return. -/
def Res.status {σ α : Type} : Res σ α → Nat
  | .ret _ _ => 0
  | .exit code _ => code

/-- The package-level flag variables after `flag.Parse()`. -/
structure Flags where
  repository : String
  organization : String
  output : String
  token : String
deriving DecidableEq, Repr

/-- The defaults registered in `init()`. -/
def defaultFlags : Flags := ⟨Repository, Organization, "", ""⟩

/-- `time.Second` in nanoseconds. -/
def Second : Int := 1000000000

/-- The least `time.Duration` (`int64` nanoseconds). -/
def minDuration : Int := -9223372036854775808

/-- The greatest `time.Duration`. -/
def maxDuration : Int := 9223372036854775807

/-- `func (t Time) Sub(u Time) Duration`: the difference, saturated to the range of
`Duration`. -/
def Time.Sub (t u : Int) : Int :=
  if t - u < minDuration then minDuration
  else if maxDuration < t - u then maxDuration
  else t - u

/-- Addition of two `Duration`s: `int64` addition, wrapping. -/
def Duration.add (x y : Int) : Int :=
  (x + y + 9223372036854775808) % 18446744073709551616 - 9223372036854775808

/-- `func (g *Github) sleepIfRateLimitExceeded(ctx context.Context)`. -/
def sleepIfRateLimitExceeded {σ : Type} (E : Env σ) (p : Proc σ) : Proc σ :=
  match E.RateLimits p.world with
  | (.error err, s) =>
    { world := s, trace := p.trace ++ [Event.RateLimits false],
      stdout := p.stdout ++ [Output.text ("Problem in getting rate limit information " ++ err ++ "\n")] }
  | (.ok rateLimit, s) =>
    if rateLimit.Search.Remaining = 1 then
      let timeToSleep := Duration.add (Time.Sub rateLimit.Search.Reset (E.Now s)) Second
      { world := E.Sleep timeToSleep s,
        trace := p.trace ++ [Event.RateLimits true, Event.Sleep timeToSleep],
        stdout := p.stdout }
    else { world := s, trace := p.trace ++ [Event.RateLimits true], stdout := p.stdout }

/-- `func (g *Github) GetOrgMembers(ctx context.Context, org string) ([]*github.User, error)`. -/
def GetOrgMembers {σ : Type} (E : Env σ) (org : String) (p : Proc σ) :
    Except Error (List User) × Proc σ :=
  let p := sleepIfRateLimitExceeded E p
  let ops : ListMembersOptions := { Filter := "all", Role := "all" }
  match E.ListMembers org ops p.world with
  | (.error err, s) =>
    (.error err, { world := s, trace := p.trace ++ [Event.ListMembers org ops false], stdout := p.stdout })
  | (.ok users, s) =>
    (.ok users, { world := s, trace := p.trace ++ [Event.ListMembers org ops true], stdout := p.stdout })

/-- `func (g *Github) GetReviewedNumbers(ctx context.Context, org, repo, author string) int`. -/
def GetReviewedNumbers {σ : Type} (E : Env σ) (org repo author : String) (p : Proc σ) :
    Res σ Int :=
  let p := sleepIfRateLimitExceeded E p
  let allReviewedPullRequestsquery :=
    "is:pr repo:" ++ org ++ "/" ++ repo ++ " reviewed-by:" ++ author ++ " -author:" ++ author
  match E.SearchIssues allReviewedPullRequestsquery p.world with
  | (.error err, s) =>
    .exit 1 { world := s, trace := p.trace ++ [Event.SearchIssues allReviewedPullRequestsquery false],
              stdout := p.stdout ++ [Output.text (err ++ "\n")] }
  | (.ok reviewedPullRequestResults, s) =>
    .ret reviewedPullRequestResults.GetTotal
      { world := s, trace := p.trace ++ [Event.SearchIssues allReviewedPullRequestsquery true],
        stdout := p.stdout }

/-- `func (g *Github) GetUserInfo(ctx context.Context, id int) *github.User`. -/
def GetUserInfo {σ : Type} (E : Env σ) (id : Int) (p : Proc σ) : Res σ User :=
  let p := sleepIfRateLimitExceeded E p
  match E.GetByID id p.world with
  | (.error err, s) =>
    .exit 1 { world := s, trace := p.trace ++ [Event.GetByID id false],
              stdout := p.stdout ++ [Output.text (err ++ "\n")] }
  | (.ok user, s) =>
    .ret user { world := s, trace := p.trace ++ [Event.GetByID id true], stdout := p.stdout }

/-- The text of `fmt.Fprintf(w, "%s\t%s\t%s\t%s\t%d\n", contris.login, contris.name,
contris.company, contris.email, contris.reviews)`. -/
def formatRow (contris : Contributes) : String :=
  contris.login ++ "\t" ++ contris.name ++ "\t" ++ contris.company ++ "\t" ++ contris.email
    ++ "\t" ++ toString contris.reviews ++ "\n"

/-- The header names of `printContributes`. -/
def headers : List String := ["Login", "Name", "Company", "Email", "Reviews"]

/-- The loop of `printContributes`: `for _, contris := range contributes { ... }`. -/
def printRows {σ : Type} : List Contributes → TabWriter → Proc σ → Res σ TabWriter
  | [], w, p => .ret w p
  | contris :: rest, w, p =>
    if contris.reviews ≤ 0 then printRows rest w p
    else
      match Fprintf w (formatRow contris) with
      | (_, some err) => .exit 1 { p with stdout := p.stdout ++ [Output.text (err ++ "\n")] }
      | (w, none) => printRows rest w p

/-- `func printContributes(contributes []Contributes, output string)`; on return the
deferred `w.Flush()` puts the writer's table on standard output. -/
def printContributes {σ : Type} (contributes : List Contributes) (_output : String)
    (p : Proc σ) : Res σ Unit :=
  let contributes := sortSort byReviewdInterface contributes
  let w := GetNewTabWriter
  match Fprintf w (String.intercalate "\t" headers ++ "\n") with
  | (_, some err) => .exit 1 { p with stdout := p.stdout ++ [Output.text (err ++ "\n")] }
  | (w, none) =>
    match printRows contributes w p with
    | .exit code p => .exit code p
    | .ret w p => .ret () { p with stdout := p.stdout ++ [Output.table w] }

/-- The record `main` assembles from a member's login and profile before the review
count is filled in (`name := "<none>"; if u.Name != nil { name = *u.Name }` and so on). -/
def newContributes (login : String) (u : User) : Contributes :=
  let name := match u.Name with
    | some v => v
    | none => "<none>"
  let company := match u.Company with
    | some v => v
    | none => "<none>"
  let email := match u.Email with
    | some v => v
    | none => "<none>"
  { login := login, name := name, company := company, email := email, reviews := 0 }

/-- The loop of `main`: `for _, user := range users { ... }`. Dereferencing a nil
`user.ID` or `user.Login` panics (exit status 2). -/
def mainLoop {σ : Type} (E : Env σ) (flags : Flags) :
    List User → List Contributes → Proc σ → Res σ (List Contributes)
  | [], contributes, p => .ret contributes p
  | user :: rest, contributes, p =>
    match user.ID with
    | none => .exit 2 p
    | some id =>
      match GetUserInfo E id p with
      | .exit code p => .exit code p
      | .ret u p =>
        match user.Login with
        | none => .exit 2 p
        | some login =>
          let contri := newContributes login u
          match GetReviewedNumbers E flags.organization flags.repository login p with
          | .exit code p => .exit code p
          | .ret n p => mainLoop E flags rest (contributes ++ [{ contri with reviews := n }]) p

/-- `func main()`, from the parsed flags and the initial state of the outside world. -/
def main {σ : Type} (E : Env σ) (flags : Flags) (s : σ) : Res σ Unit :=
  let p : Proc σ := { world := s, trace := [], stdout := [] }
  match GetOrgMembers E Organization p with
  | (.error err, p) =>
    .exit 1 { p with stdout := p.stdout ++
      [Output.text ("Error get " ++ flags.organization ++ " origanization members: " ++ err)] }
  | (.ok users, p) =>
    match mainLoop E flags users [] p with
    | .exit code p => .exit code p
    | .ret contributes p => printContributes contributes flags.output p

/-- The data rows of the run: the rows written to a flushed tab writer after its header
line, as they were written. -/
def dataRows {σ : Type} (p : Proc σ) : List String :=
  (p.stdout.map fun o => match o with
    | Output.table w => w.buf.tail
    | Output.text _ => []).flatten

/-- An event that is an error returned by the member listing, a profile lookup or a
review-count search. -/
def Event.apiFailed : Event → Bool
  | .ListMembers _ _ ok => !ok
  | .GetByID _ ok => !ok
  | .SearchIssues _ ok => !ok
  | _ => false

/-! ### Scripted outside worlds, for concrete runs -/

/-- A scripted GitHub: fixed answers of the four endpoints. -/
structure Script where
  rate : Except Error RateLimits
  members : String → Except Error (List User)
  profile : Int → Except Error User
  search : String → Except Error IssuesSearchResult

/-- The environment of a script; the outside-world state is the clock (nanoseconds),
which `time.Sleep(d)` advances by `d` when `d` is positive. -/
def Script.env (sc : Script) : Env Int where
  RateLimits := fun s => (sc.rate, s)
  ListMembers := fun org _ s => (sc.members org, s)
  GetByID := fun id s => (sc.profile id, s)
  SearchIssues := fun q s => (sc.search q, s)
  Now := fun s => s
  Sleep := fun d s => if 0 < d then s + d else s

/-- A rate-limit answer with the given remaining search quota and reset instant. -/
def rateOf (remaining reset : Int) : RateLimits :=
  { Core := ⟨5000, 4999, reset⟩, Search := ⟨30, remaining, reset⟩ }

/-- A member with the given id and login and an empty profile. -/
def memberOf (id : Int) (login : String) : User :=
  { ID := some id, Login := some login, Name := none, Company := none, Email := none }

/-- Three members A, B, C with 5, 0 and 2 reviewed pull requests; Jane Doe is member A,
without a company. -/
def scenario : Script where
  rate := .ok (rateOf 30 0)
  members := fun _ => .ok [memberOf 1 "A", memberOf 2 "B", memberOf 3 "C"]
  profile := fun id =>
    if id = 1 then .ok { memberOf 1 "A" with Name := some "Jane Doe", Email := some "jane@x.com" }
    else if id = 2 then .ok (memberOf 2 "B")
    else .ok (memberOf 3 "C")
  search := fun q =>
    if q = "is:pr repo:k8smeetup/kubernetes.github.io reviewed-by:A -author:A" then
      .ok ⟨some 5, ["pr1", "pr2"]⟩
    else if q = "is:pr repo:k8smeetup/kubernetes.github.io reviewed-by:C -author:C" then
      .ok ⟨some 2, []⟩
    else .ok ⟨some 0, []⟩

/-- The scenario with a rate-limit endpoint that always fails. -/
def rateLimitDown : Script := { scenario with rate := .error "503" }

/-- A GitHub where each organization has its own single member. -/
def twoOrgs : Script where
  rate := .ok (rateOf 30 0)
  members := fun org =>
    if org = "kubernetes" then .ok [memberOf 7 "kube-dev"] else .ok [memberOf 8 "meetup-dev"]
  profile := fun id => .ok (memberOf id "x")
  search := fun _ => .ok ⟨some 4, []⟩

/-- The scenario where the second profile lookup fails. -/
def profileDown : Script :=
  { scenario with profile := fun id => if id = 2 then .error "404" else scenario.profile id }

/-- The scenario with one search call left and the quota reset at second 5. -/
def soonReset : Script := { scenario with rate := .ok (rateOf 1 5000000000) }

/-- The scenario with one search call left and a reset instant `2^63` nanoseconds away,
more than a `time.Duration` can hold. -/
def farReset : Script := { scenario with rate := .ok (rateOf 1 9223372036854775808) }

/-- The scenario where listing the members fails. -/
def membersDown : Script := { scenario with members := fun _ => .error "401" }

/-- The start of a run: the given outside world, nothing traced or printed yet. -/
def Proc.start {σ : Type} (s : σ) : Proc σ := { world := s, trace := [], stdout := [] }

/-- Whether a piece of standard output is a flushed table. -/
def Output.isTable : Output → Bool
  | .table _ => true
  | .text _ => false

/-- A run state in which no listing, lookup or search has failed and no table has been
printed. -/
def Clean {σ : Type} (p : Proc σ) : Prop :=
  (∀ e ∈ p.trace, e.apiFailed = false) ∧ (∀ o ∈ p.stdout, o.isTable = false)

/-- A result that either returns in a clean state or exits with a non-zero status
before any table is printed. -/
def Res.Guarded {σ α : Type} : Res σ α → Prop
  | .ret _ p => Clean p
  | .exit code p => code ≠ 0 ∧ ∀ o ∈ p.stdout, o.isTable = false

/-! ### Words for what the tab writer prints -/

/-- A character that ends a cell or a line of the tab writer: tab, vertical tab, newline,
form feed. -/
def isBreak (ch : Char) : Bool :=
  ch == '\t' || ch == '\x0b' || ch == '\n' || ch == '\x0c'

/-- Text without a tab, vertical tab, newline or form feed. -/
def PlainText (l : List Char) : Prop := ∀ ch ∈ l, isBreak ch = false

/-- Whether a string has no tab, vertical tab, newline or form feed. -/
def isPlain (s : String) : Bool := s.data.all fun ch => !isBreak ch

/-- The text `s` followed by spaces up to `width` characters in all. -/
def padTo (s : String) (width : Nat) : String :=
  s ++ String.mk (List.replicate (width - s.length) ' ')

/-- The width of a column of the table: that of its widest cell plus the padding of 3, and
at least the minimal width of 10. -/
def columnWidth (cells : List String) : Nat :=
  (cells.map fun s => s.length + tabwriterPadding).foldl max tabwriterMinWidth

/-- A line of five fields aligned in four columns of the widths given: each of the first
four fields is padded with spaces to the width of its column, the fifth ends the line. -/
def alignedRow (w0 w1 w2 w3 : Nat) (a b c d e : String) : String :=
  padTo a w0 ++ padTo b w1 ++ padTo c w2 ++ padTo d w3 ++ e ++ "\n"

/-- The five fields of a line of the table. -/
structure Fields where
  a : String
  b : String
  c : String
  d : String
  e : String

/-- The line as it is written to the tab writer: the fields separated by tabs, then a
newline. -/
def Fields.text (r : Fields) : String :=
  r.a ++ "\t" ++ r.b ++ "\t" ++ r.c ++ "\t" ++ r.d ++ "\t" ++ r.e ++ "\n"

/-- The cells the tab writer cuts the line into: four ended by a tab, the last by the
newline. -/
def Fields.cells (r : Fields) : List Cell :=
  [⟨r.a.data, true⟩, ⟨r.b.data, true⟩, ⟨r.c.data, true⟩, ⟨r.d.data, true⟩, ⟨r.e.data, false⟩]

/-- All five fields are free of tabs, vertical tabs, newlines and form feeds. -/
def Fields.Plain (r : Fields) : Prop :=
  PlainText r.a.data ∧ PlainText r.b.data ∧ PlainText r.c.data ∧ PlainText r.d.data ∧
    PlainText r.e.data

/-- The header line of the table, by fields. -/
def headerFields : Fields := ⟨"Login", "Name", "Company", "Email", "Reviews"⟩

/-- The fields of the row of a record. -/
def Contributes.fields (c : Contributes) : Fields :=
  ⟨c.login, c.name, c.company, c.email, toString c.reviews⟩

/-- The record of a member with name "Jane Doe", no company, email "jane@x.com" and 7
reviews. -/
def janeDoe : Contributes :=
  { newContributes "login" ⟨some 1, some "login", some "Jane Doe", none, some "jane@x.com"⟩
    with reviews := 7 }

/-! ### Predicates used to state what the sort achieves -/

/-- An interface whose comparison is `≤` on an integer key read off the collection:
`Less(i, j)` holds exactly when the key at `i` is at most the key at `j`, and `Swap`
exchanges two entries. The comparison is reflexive, as that of `byReviewd` is. -/
structure Keyed {D : Type} (I : Interface D) (key : D → Nat → Int) : Prop where
  less : ∀ d i j, i < I.Len d → j < I.Len d → (I.Less d i j = true ↔ key d i ≤ key d j)
  len_swap : ∀ d i j, I.Len (I.Swap d i j) = I.Len d
  key_swap : ∀ d i j, i < I.Len d → j < I.Len d → ∀ k,
    key (I.Swap d i j) k = if k = j then key d i else if k = i then key d j else key d k

/-- The collection `e` is reached from `d` by swaps of positions inside `[a, b)`. -/
inductive Shuffled {D : Type} (I : Interface D) (a b : Nat) : D → D → Prop where
  | refl (d : D) : Shuffled I a b d d
  | step {d e : D} (i j : Nat) : a ≤ i → i < b → a ≤ j → j < b → Shuffled I a b d e →
      Shuffled I a b d (I.Swap e i j)

/-- The keys of `d` are in nondecreasing order on the positions `[a, b)`. -/
def SortedOn {D : Type} (key : D → Nat → Int) (d : D) (a b : Nat) : Prop :=
  ∀ x y, a ≤ x → x ≤ y → y < b → key d x ≤ key d y

/-- Heap order at node `i` of the heap laid out on positions `first + [0, hi)`: the
children `2i+1` and `2i+2`, where they exist, have keys at most that of `i`. -/
def HeapAt {D : Type} (key : D → Nat → Int) (d : D) (first hi i : Nat) : Prop :=
  (2 * i + 1 < hi → key d (first + (2 * i + 1)) ≤ key d (first + i)) ∧
  (2 * i + 2 < hi → key d (first + (2 * i + 2)) ≤ key d (first + i))

/-- The sort key of `byReviewd`: `Less` compares with `>=`, so larger review counts
come first. -/
def byReviewd.key (a : byReviewd) (i : Nat) : Int := -(a.at i).reviews

/-! ## Part 3: lemmas and theorems -/

section sortproofs
variable {D : Type} {I : Interface D} {key : D → Nat → Int}

theorem Shuffled.trans {a b : Nat} {d e f : D} (h1 : Shuffled I a b d e)
    (h2 : Shuffled I a b e f) : Shuffled I a b d f := by
  induction h2 with
  | refl => exact h1
  | step i j hi1 hi2 hj1 hj2 _ ih => exact Shuffled.step i j hi1 hi2 hj1 hj2 ih

theorem Shuffled.mono {a b a' b' : Nat} {d e : D} (h : Shuffled I a b d e)
    (ha : a' ≤ a) (hb : b ≤ b') : Shuffled I a' b' d e := by
  induction h with
  | refl => exact Shuffled.refl _
  | step i j hi1 hi2 hj1 hj2 _ ih =>
    exact Shuffled.step i j (by omega) (by omega) (by omega) (by omega) ih

theorem Shuffled.swap {a b : Nat} (d : D) (i j : Nat) (hi1 : a ≤ i) (hi2 : i < b)
    (hj1 : a ≤ j) (hj2 : j < b) : Shuffled I a b d (I.Swap d i j) :=
  Shuffled.step i j hi1 hi2 hj1 hj2 (Shuffled.refl d)

theorem Shuffled.len (K : Keyed I key) {a b : Nat} {d e : D} (h : Shuffled I a b d e) :
    I.Len e = I.Len d := by
  induction h with
  | refl => rfl
  | step i j _ _ _ _ _ ih => rw [K.len_swap, ih]

theorem Shuffled.frame (K : Keyed I key) {a b : Nat} {d e : D} (h : Shuffled I a b d e)
    (hb : b ≤ I.Len d) (k : Nat) (hk : k < a ∨ b ≤ k) : key e k = key d k := by
  induction h with
  | refl => rfl
  | step i j hi1 hi2 hj1 hj2 hs ih =>
    have hl := hs.len K
    rw [K.key_swap _ i j (by omega) (by omega) k, if_neg (by omega), if_neg (by omega), ih]

theorem Shuffled.image (K : Keyed I key) {a b : Nat} {d e : D} (h : Shuffled I a b d e)
    (hb : b ≤ I.Len d) (k : Nat) (hk1 : a ≤ k) (hk2 : k < b) :
    ∃ k', a ≤ k' ∧ k' < b ∧ key e k = key d k' := by
  induction h generalizing k with
  | refl => exact ⟨k, hk1, hk2, rfl⟩
  | step i j hi1 hi2 hj1 hj2 hs ih =>
    have hl := hs.len K
    rw [K.key_swap _ i j (by omega) (by omega) k]
    split_ifs
    · exact ih i hi1 hi2
    · exact ih j hj1 hj2
    · exact ih k hk1 hk2

theorem Shuffled.keys_le (K : Keyed I key) {a b : Nat} {d e : D} (h : Shuffled I a b d e)
    (hb : b ≤ I.Len d) (v : Int) (hv : ∀ k, a ≤ k → k < b → key d k ≤ v) :
    ∀ k, a ≤ k → k < b → key e k ≤ v := by
  intro k hk1 hk2
  obtain ⟨k', h1, h2, h3⟩ := h.image K hb k hk1 hk2
  rw [h3]; exact hv k' h1 h2

theorem Shuffled.keys_ge (K : Keyed I key) {a b : Nat} {d e : D} (h : Shuffled I a b d e)
    (hb : b ≤ I.Len d) (v : Int) (hv : ∀ k, a ≤ k → k < b → v ≤ key d k) :
    ∀ k, a ≤ k → k < b → v ≤ key e k := by
  intro k hk1 hk2
  obtain ⟨k', h1, h2, h3⟩ := h.image K hb k hk1 hk2
  rw [h3]; exact hv k' h1 h2

theorem insertionInner_spec (K : Keyed I key) (a i : Nat) :
    ∀ (j : Nat) (d : D), a ≤ j → j ≤ i → i < I.Len d →
      (∀ x y, a ≤ x → x ≤ y → y ≤ i → x ≠ j → y ≠ j → key d x ≤ key d y) →
      (∀ y, j < y → y ≤ i → key d j ≤ key d y) →
      Shuffled I a (i + 1) d (insertionInner I a j d) ∧
        SortedOn key (insertionInner I a j d) a (i + 1) := by
  intro j
  induction j with
  | zero =>
    intro d ha _ _ h1 h2
    refine ⟨Shuffled.refl d, ?_⟩
    intro x y hx hxy hy
    by_cases hx0 : x = 0
    · by_cases hy0 : y = 0
      · subst hx0; subst hy0; exact le_refl _
      · subst hx0; exact h2 y (by omega) (by omega)
    · exact h1 x y hx hxy (by omega) hx0 (by omega)
  | succ j ih =>
    intro d ha hji hlen h1 h2
    by_cases hc : (decide (a < j + 1) && I.Less d (j + 1) j) = true
    · have hstep : insertionInner I a (j + 1) d = insertionInner I a j (I.Swap d (j + 1) j) := by
        simp only [insertionInner, hc, if_true]
      rw [hstep]
      simp only [Bool.and_eq_true, decide_eq_true_eq] at hc
      obtain ⟨haj, hless⟩ := hc
      have hkey : key d (j + 1) ≤ key d j := (K.less d (j + 1) j (by omega) (by omega)).1 hless
      have hsw := K.key_swap d (j + 1) j (by omega) (by omega)
      have hrec := ih (I.Swap d (j + 1) j) (by omega) (by omega) (by rw [K.len_swap]; exact hlen)
        (by
          intro x y hx hxy hy hxj hyj
          rw [hsw x, hsw y]
          by_cases hx1 : x = j + 1
          · by_cases hy1 : y = j + 1
            · simp [hx1, hy1]
            · have := h1 j y (by omega) (by omega) hy (by omega) hy1
              simp only [hx1, if_neg hyj, if_neg hy1]; simpa using this
          · by_cases hy1 : y = j + 1
            · have := h1 x j hx (by omega) (by omega) hx1 (by omega)
              simp only [hy1, if_neg hxj, if_neg hx1]; simpa using this
            · simp only [if_neg hxj, if_neg hx1, if_neg hyj, if_neg hy1]
              exact h1 x y hx hxy hy hx1 hy1)
        (by
          intro y hjy hy
          rw [hsw j, hsw y]
          by_cases hy1 : y = j + 1
          · simp [hy1]; exact hkey
          · have := h2 y (by omega) hy
            simp only [if_neg (show ¬ y = j by omega), if_neg hy1]; simpa using this)
      refine ⟨?_, hrec.2⟩
      exact (Shuffled.swap d (j + 1) j (by omega) (by omega) (by omega) (by omega)).trans hrec.1
    · have hstep : insertionInner I a (j + 1) d = d := by
        simp only [insertionInner, hc]; rfl
      rw [hstep]
      refine ⟨Shuffled.refl d, ?_⟩
      simp only [Bool.and_eq_true, decide_eq_true_eq, not_and] at hc
      intro x y hx hxy hy
      have hy' : y ≤ i := by omega
      by_cases hxj : x = j + 1
      · by_cases hyj : y = j + 1
        · rw [hxj, hyj]
        · rw [hxj]; exact h2 y (by omega) hy'
      · by_cases hyj : y = j + 1
        · have haj : a < j + 1 := by omega
          have hnl := hc haj
          have hlt : ¬ key d (j + 1) ≤ key d j := fun h =>
            hnl ((K.less d (j + 1) j (by omega) (by omega)).2 h)
          by_cases hxj' : x = j
          · rw [hxj', hyj]; omega
          · have := h1 x j hx (by omega) (by omega) hxj (by omega)
            rw [hyj]; omega
        · exact h1 x y hx hxy hy' hxj hyj

theorem insertionOuter_spec (K : Keyed I key) (a b : Nat) :
    ∀ (n i : Nat) (d : D), a + 1 ≤ i → b ≤ I.Len d → b - i ≤ n → SortedOn key d a i →
      Shuffled I a b d (insertionOuter I a b n i d) ∧
        SortedOn key (insertionOuter I a b n i d) a b := by
  intro n
  induction n with
  | zero =>
    intro i d _ _ hn hs
    refine ⟨Shuffled.refl d, ?_⟩
    intro x y hx hxy hy
    exact hs x y hx hxy (by omega)
  | succ n ih =>
    intro i d hi hb hn hs
    by_cases hib : i < b
    · have hstep : insertionOuter I a b (n + 1) i d
          = insertionOuter I a b n (i + 1) (insertionInner I a i d) := by
        simp only [insertionOuter, hib, if_true]
      rw [hstep]
      have hin := insertionInner_spec K a i i d (by omega) (le_refl i) (by omega)
        (fun x y hx hxy hy _ hyi => hs x y hx hxy (by omega))
        (fun y h1 h2 => absurd h1 (by omega))
      have hlen := hin.1.len K
      have hrec := ih (i + 1) (insertionInner I a i d) (by omega) (by omega) (by omega) hin.2
      exact ⟨(hin.1.mono (le_refl a) (by omega)).trans hrec.1, hrec.2⟩
    · have hstep : insertionOuter I a b (n + 1) i d = d := by
        simp only [insertionOuter, hib, if_false]
      rw [hstep]
      refine ⟨Shuffled.refl d, ?_⟩
      intro x y hx hxy hy
      exact hs x y hx hxy (by omega)

theorem insertionSort_spec (K : Keyed I key) (d : D) (a b : Nat) (hb : b ≤ I.Len d) :
    Shuffled I a b d (insertionSort I d a b) ∧ SortedOn key (insertionSort I d a b) a b := by
  unfold insertionSort
  apply insertionOuter_spec K a b _ _ d (le_refl _) hb (le_refl _)
  intro x y hx hxy hy
  have : x = y := by omega
  rw [this]

theorem shellPass_shuffled (a b : Nat) :
    ∀ (n i : Nat) (d : D), a + 6 ≤ i → Shuffled I a b d (shellPass I b n i d) := by
  intro n
  induction n with
  | zero => intro i d _; exact Shuffled.refl d
  | succ n ih =>
    intro i d hi
    by_cases hib : i < b
    · have hstep : shellPass I b (n + 1) i d
          = shellPass I b n (i + 1) (if I.Less d i (i - 6) then I.Swap d i (i - 6) else d) := by
        simp only [shellPass, hib, if_true]
      rw [hstep]
      refine Shuffled.trans ?_ (ih (i + 1) _ (by omega))
      split_ifs
      · exact Shuffled.swap d i (i - 6) (by omega) hib (by omega) (by omega)
      · exact Shuffled.refl d
    · have hstep : shellPass I b (n + 1) i d = d := by
        simp only [shellPass, hib, if_false]
      rw [hstep]; exact Shuffled.refl d

/-- The tail of `quickSort` on a short range sorts it. -/
theorem smallSort_spec (K : Keyed I key) (d : D) (a b : Nat) (hb : b ≤ I.Len d) :
    Shuffled I a b d (insertionSort I (shellPass I b (b - (a + 6)) (a + 6) d) a b) ∧
      SortedOn key (insertionSort I (shellPass I b (b - (a + 6)) (a + 6) d) a b) a b := by
  have h1 : Shuffled I a b d (shellPass I b (b - (a + 6)) (a + 6) d) :=
    shellPass_shuffled a b _ _ d (le_refl _)
  have h2 := insertionSort_spec K (shellPass I b (b - (a + 6)) (a + 6) d) a b
    (by rw [h1.len K]; exact hb)
  exact ⟨h1.trans h2.1, h2.2⟩

theorem medianOfThree_shuffled (a b : Nat) (d : D) (m1 m0 m2 : Nat)
    (h1 : a ≤ m1 ∧ m1 < b) (h0 : a ≤ m0 ∧ m0 < b) (h2 : a ≤ m2 ∧ m2 < b) :
    Shuffled I a b d (medianOfThree I d m1 m0 m2) := by
  unfold medianOfThree
  have hA : Shuffled I a b d (if I.Less d m1 m0 then I.Swap d m1 m0 else d) := by
    split_ifs
    · exact Shuffled.swap d m1 m0 h1.1 h1.2 h0.1 h0.2
    · exact Shuffled.refl d
  generalize (if I.Less d m1 m0 then I.Swap d m1 m0 else d) = e at hA ⊢
  refine hA.trans ?_
  simp only []
  split_ifs
  · exact (Shuffled.swap _ m2 m1 h2.1 h2.2 h1.1 h1.2).trans
      (Shuffled.swap _ m1 m0 h1.1 h1.2 h0.1 h0.2)
  · exact Shuffled.swap _ m2 m1 h2.1 h2.2 h1.1 h1.2
  · exact Shuffled.refl _

theorem medianOfThree_le (K : Keyed I key) (d : D) (m1 m0 m2 : Nat)
    (h1 : m1 < I.Len d) (h0 : m0 < I.Len d) (h2 : m2 < I.Len d)
    (h10 : m1 ≠ m0) (h12 : m1 ≠ m2) (h02 : m0 ≠ m2) :
    key (medianOfThree I d m1 m0 m2) m1 ≤ key (medianOfThree I d m1 m0 m2) m2 := by
  unfold medianOfThree
  have hA : I.Len (if I.Less d m1 m0 then I.Swap d m1 m0 else d) = I.Len d ∧
      key (if I.Less d m1 m0 then I.Swap d m1 m0 else d) m0
        ≤ key (if I.Less d m1 m0 then I.Swap d m1 m0 else d) m1 := by
    split_ifs with hc
    · refine ⟨K.len_swap _ _ _, ?_⟩
      have := (K.less d m1 m0 h1 h0).1 hc
      rw [K.key_swap d m1 m0 h1 h0 m0, K.key_swap d m1 m0 h1 h0 m1]
      simp only [if_true, if_neg h10]
      exact this
    · refine ⟨rfl, ?_⟩
      have : ¬ key d m1 ≤ key d m0 := fun h => hc ((K.less d m1 m0 h1 h0).2 h)
      omega
  generalize (if I.Less d m1 m0 then I.Swap d m1 m0 else d) = e at hA ⊢
  obtain ⟨hl, h01⟩ := hA
  simp only []
  have e1 : m1 < I.Len e := by omega
  have e0 : m0 < I.Len e := by omega
  have e2 : m2 < I.Len e := by omega
  split_ifs with hc1 hc2
  · have hf := K.key_swap e m2 m1 e2 e1
    have hlf : I.Len (I.Swap e m2 m1) = I.Len e := K.len_swap _ _ _
    have hg := K.key_swap (I.Swap e m2 m1) m1 m0 (by omega) (by omega)
    rw [hg m1, hg m2, hf m0, hf m2]
    simp only [if_neg h10, if_true, if_neg (Ne.symm h12), if_neg (Ne.symm h02), if_neg h02,
      if_neg (Ne.symm h10)]
    exact h01
  · have hf := K.key_swap e m2 m1 e2 e1
    rw [hf m1, hf m2]
    simp only [if_true, if_neg (Ne.symm h12)]
    exact (K.less e m2 m1 e2 e1).1 hc1
  · have : ¬ key e m2 ≤ key e m1 := fun h => hc1 ((K.less e m2 m1 e2 e1).2 h)
    omega

theorem scanLess_spec (K : Keyed I key) (d : D) (pivot c : Nat) (hc : c ≤ I.Len d)
    (hp : pivot < I.Len d) :
    ∀ (n a : Nat), a ≤ c → c - a ≤ n →
      a ≤ scanLess I d pivot c n a ∧ scanLess I d pivot c n a ≤ c ∧
      (∀ x, a ≤ x → x < scanLess I d pivot c n a → key d x ≤ key d pivot) ∧
      (scanLess I d pivot c n a < c → key d pivot < key d (scanLess I d pivot c n a)) := by
  intro n
  induction n with
  | zero =>
    intro a hac hn
    simp only [scanLess]
    exact ⟨le_refl a, hac, fun x h1 h2 => absurd h1 (by omega), fun h => absurd h (by omega)⟩
  | succ n ih =>
    intro a hac hn
    by_cases hcond : (decide (a < c) && I.Less d a pivot) = true
    · have hstep : scanLess I d pivot c (n + 1) a = scanLess I d pivot c n (a + 1) := by
        simp only [scanLess, hcond, if_true]
      rw [hstep]
      simp only [Bool.and_eq_true, decide_eq_true_eq] at hcond
      obtain ⟨h1, h2, h3, h4⟩ := ih (a + 1) (by omega) (by omega)
      refine ⟨by omega, h2, ?_, h4⟩
      intro x hx1 hx2
      by_cases hxa : x = a
      · rw [hxa]; exact (K.less d a pivot (by omega) hp).1 hcond.2
      · exact h3 x (by omega) hx2
    · have hstep : scanLess I d pivot c (n + 1) a = a := by
        simp only [scanLess, hcond]; rfl
      rw [hstep]
      simp only [Bool.and_eq_true, decide_eq_true_eq, not_and] at hcond
      refine ⟨le_refl a, hac, fun x h1 h2 => absurd h1 (by omega), ?_⟩
      intro h
      have : ¬ key d a ≤ key d pivot := fun hle =>
        hcond h ((K.less d a pivot (by omega) hp).2 hle)
      omega

theorem scanNotGreater_spec (K : Keyed I key) (d : D) (pivot c : Nat) (hc : c ≤ I.Len d)
    (hp : pivot < I.Len d) :
    ∀ (n b : Nat), b ≤ c → c - b ≤ n →
      b ≤ scanNotGreater I d pivot c n b ∧ scanNotGreater I d pivot c n b ≤ c ∧
      (∀ x, b ≤ x → x < scanNotGreater I d pivot c n b → key d x < key d pivot) ∧
      (scanNotGreater I d pivot c n b < c →
        key d pivot ≤ key d (scanNotGreater I d pivot c n b)) := by
  intro n
  induction n with
  | zero =>
    intro b hbc hn
    simp only [scanNotGreater]
    exact ⟨le_refl b, hbc, fun x h1 h2 => absurd h1 (by omega), fun h => absurd h (by omega)⟩
  | succ n ih =>
    intro b hbc hn
    by_cases hcond : (decide (b < c) && !I.Less d pivot b) = true
    · have hstep : scanNotGreater I d pivot c (n + 1) b = scanNotGreater I d pivot c n (b + 1) := by
        simp only [scanNotGreater, hcond, if_true]
      rw [hstep]
      simp only [Bool.and_eq_true, decide_eq_true_eq, Bool.not_eq_true'] at hcond
      obtain ⟨h1, h2, h3, h4⟩ := ih (b + 1) (by omega) (by omega)
      refine ⟨by omega, h2, ?_, h4⟩
      intro x hx1 hx2
      by_cases hxb : x = b
      · rw [hxb]
        have : ¬ key d pivot ≤ key d b := fun hle => by
          have := (K.less d pivot b hp (by omega)).2 hle
          rw [hcond.2] at this; exact Bool.noConfusion this
        omega
      · exact h3 x (by omega) hx2
    · have hstep : scanNotGreater I d pivot c (n + 1) b = b := by
        simp only [scanNotGreater, hcond]; rfl
      rw [hstep]
      simp only [Bool.and_eq_true, decide_eq_true_eq, Bool.not_eq_true', not_and,
        Bool.not_eq_false] at hcond
      refine ⟨le_refl b, hbc, fun x h1 h2 => absurd h1 (by omega), ?_⟩
      intro h
      exact (K.less d pivot b hp (by omega)).1 (hcond h)

theorem scanGreater_spec (K : Keyed I key) (d : D) (pivot b : Nat) (hp : pivot < I.Len d) :
    ∀ (c : Nat), c ≤ I.Len d →
      scanGreater I d pivot b c ≤ c ∧ (b ≤ c → b ≤ scanGreater I d pivot b c) ∧
      (∀ z, scanGreater I d pivot b c ≤ z → z < c → key d pivot ≤ key d z) ∧
      (b < scanGreater I d pivot b c →
        key d (scanGreater I d pivot b c - 1) < key d pivot) := by
  intro c
  induction c with
  | zero =>
    intro _
    simp only [scanGreater]
    exact ⟨le_refl 0, fun h => h, fun z h1 h2 => absurd h2 (by omega), fun h => absurd h (by omega)⟩
  | succ c ih =>
    intro hc
    by_cases hcond : (decide (b < c + 1) && I.Less d pivot c) = true
    · have hstep : scanGreater I d pivot b (c + 1) = scanGreater I d pivot b c := by
        simp only [scanGreater, hcond, if_true]
      rw [hstep]
      simp only [Bool.and_eq_true, decide_eq_true_eq] at hcond
      obtain ⟨h1, h2, h3, h4⟩ := ih (by omega)
      refine ⟨by omega, fun _ => h2 (by omega), ?_, h4⟩
      intro z hz1 hz2
      by_cases hzc : z = c
      · rw [hzc]; exact (K.less d pivot c hp (by omega)).1 hcond.2
      · exact h3 z hz1 (by omega)
    · have hstep : scanGreater I d pivot b (c + 1) = c + 1 := by
        simp only [scanGreater, hcond]; rfl
      rw [hstep]
      simp only [Bool.and_eq_true, decide_eq_true_eq, not_and] at hcond
      refine ⟨le_refl _, fun h => h, fun z h1 h2 => absurd h1 (by omega), ?_⟩
      intro h
      have : ¬ key d pivot ≤ key d c := fun hle =>
        hcond h ((K.less d pivot c hp (by omega)).2 hle)
      simp only [Nat.add_sub_cancel]
      omega

theorem pivotLoop_spec (K : Keyed I key) (lo hi : Nat) (pv : Int) :
    ∀ (n : Nat) (d : D) (b c : Nat), hi ≤ I.Len d → lo + 1 ≤ b → b ≤ c → c + 1 ≤ hi →
      c - b < n → key d lo = pv → pv ≤ key d (hi - 1) →
      (∀ x, lo + 1 ≤ x → x < b → key d x ≤ pv) →
      (∀ z, c ≤ z → z < hi - 1 → pv ≤ key d z) →
      Shuffled I (lo + 1) (hi - 1) d (pivotLoop I lo n d b c).1 ∧
      (pivotLoop I lo n d b c).2.1 = (pivotLoop I lo n d b c).2.2 ∧
      b ≤ (pivotLoop I lo n d b c).2.1 ∧ (pivotLoop I lo n d b c).2.2 ≤ c ∧
      (∀ x, lo + 1 ≤ x → x < (pivotLoop I lo n d b c).2.1 →
        key (pivotLoop I lo n d b c).1 x ≤ pv) ∧
      (∀ z, (pivotLoop I lo n d b c).2.2 ≤ z → z < hi - 1 →
        pv ≤ key (pivotLoop I lo n d b c).1 z) := by
  intro n
  induction n with
  | zero => intro d b c _ _ _ _ hn; exact absurd hn (by omega)
  | succ n ih =>
    intro d b c hlen hb hbc hc hn hpk hhi hL hR
    obtain ⟨s1, s2, s3, s4⟩ := scanNotGreater_spec K d lo c (by omega) (by omega) (c - b) b hbc
      (le_refl _)
    generalize hb1 : scanNotGreater I d lo c (c - b) b = b1 at s1 s2 s3 s4
    obtain ⟨t1, t2, t3, t4⟩ := scanGreater_spec K d lo b1 (by omega) c (by omega)
    generalize hc1 : scanGreater I d lo b1 c = c1 at t1 t2 t3 t4
    have t2' := t2 s2
    rw [hpk] at s3 s4 t3 t4
    by_cases hge : b1 ≥ c1
    · have hstep : pivotLoop I lo (n + 1) d b c = (d, b1, c1) := by
        simp only [pivotLoop, hb1, hc1, hge, if_true]
      rw [hstep]
      refine ⟨Shuffled.refl d, by simp only []; omega, s1, t1, ?_, ?_⟩
      · intro x hx1 hx2
        simp only [] at hx2 ⊢
        by_cases hxb : x < b
        · exact hL x hx1 hxb
        · exact le_of_lt (s3 x (by omega) hx2)
      · intro z hz1 hz2
        simp only [] at hz1 ⊢
        by_cases hzc : z < c
        · exact t3 z hz1 hzc
        · exact hR z (by omega) hz2
    · have hstep : pivotLoop I lo (n + 1) d b c
          = pivotLoop I lo n (I.Swap d b1 (c1 - 1)) (b1 + 1) (c1 - 1) := by
        simp only [pivotLoop, hb1, hc1, hge, if_false]
      rw [hstep]
      have hlt : b1 < c1 := by omega
      have k1 := s4 (by omega)
      have k2 := t4 hlt
      have hne : b1 ≠ c1 - 1 := by
        intro h; rw [← h] at k2; omega
      have hsw := K.key_swap d b1 (c1 - 1) (by omega) (by omega)
      have hrec := ih (I.Swap d b1 (c1 - 1)) (b1 + 1) (c1 - 1) (by rw [K.len_swap]; exact hlen)
        (by omega) (by omega) (by omega) (by omega)
        (by rw [hsw lo, if_neg (by omega), if_neg (by omega)]; exact hpk)
        (by rw [hsw (hi - 1), if_neg (by omega), if_neg (by omega)]; exact hhi)
        (by
          intro x hx1 hx2
          rw [hsw x]
          by_cases hxb1 : x = b1
          · rw [if_neg (by omega), if_pos hxb1]; omega
          · rw [if_neg (by omega), if_neg hxb1]
            by_cases hxb : x < b
            · exact hL x hx1 hxb
            · exact le_of_lt (s3 x (by omega) (by omega)))
        (by
          intro z hz1 hz2
          rw [hsw z]
          by_cases hzc1 : z = c1 - 1
          · rw [if_pos hzc1]; exact k1
          · rw [if_neg hzc1, if_neg (by omega)]
            by_cases hzc : z < c
            · exact t3 z (by omega) hzc
            · exact hR z (by omega) hz2)
      obtain ⟨r1, r2, r3, r4, r5, r6⟩ := hrec
      refine ⟨?_, r2, by omega, by omega, r5, r6⟩
      exact (Shuffled.swap d b1 (c1 - 1) (by omega) (by omega) (by omega) (by omega)).trans r1

theorem scanEqualDown_stop (K : Keyed I key) (d : D) (pivot a b : Nat) (hb : b ≤ I.Len d)
    (hp : pivot < I.Len d) (h : a < b → key d (b - 1) ≤ key d pivot) :
    scanEqualDown I d pivot a b = b := by
  cases b with
  | zero => rfl
  | succ b =>
    by_cases hab : a < b + 1
    · have hl : I.Less d b pivot = true := (K.less d b pivot (by omega) hp).2 (by simpa using h hab)
      simp only [scanEqualDown, hl, Bool.not_true, Bool.and_false]; rfl
    · simp only [scanEqualDown, hab, decide_False, Bool.false_and]; rfl

theorem protectLoop_idle (K : Keyed I key) (d : D) (lo a b n : Nat) (hb : b ≤ I.Len d)
    (hp : lo < I.Len d) (h : ∀ x, a ≤ x → x < b → key d x ≤ key d lo) :
    (protectLoop I lo (n + 1) d a b).1 = d ∧ (protectLoop I lo (n + 1) d a b).2.2 = b := by
  have h1 : scanEqualDown I d lo a b = b :=
    scanEqualDown_stop K d lo a b hb hp (fun hab => h (b - 1) (by omega) (by omega))
  by_cases hab : a ≤ b
  · obtain ⟨s1, s2, s3, s4⟩ := scanLess_spec K d lo b hb hp (b - a) a hab (le_refl _)
    have hge : scanLess I d lo b (b - a) a ≥ b := by
      by_contra hlt
      have hlt' : scanLess I d lo b (b - a) a < b := by omega
      have := s4 hlt'
      have := h _ s1 hlt'
      omega
    simp only [protectLoop, h1, hge, if_true, and_self]
  · have h0 : b - a = 0 := by omega
    have hge : a ≥ b := by omega
    simp only [protectLoop, h1, h0, scanLess, hge, if_true, and_self]

theorem dupsProbe_idle (K : Keyed I key) (d : D) (lo hi m b c : Nat) (hlen : hi ≤ I.Len d)
    (hlo : lo < hi) (hb : b ≤ hi) (hm : m < hi)
    (h1 : key d lo ≤ key d (hi - 1)) (h2 : key d (b - 1) ≤ key d lo)
    (h3 : key d m ≤ key d lo) :
    dupsProbe I d lo hi m b c = (d, b, c, 0) := by
  have l1 : I.Less d lo (hi - 1) = true := (K.less d lo (hi - 1) (by omega) (by omega)).2 h1
  have l2 : I.Less d (b - 1) lo = true := (K.less d (b - 1) lo (by omega) (by omega)).2 h2
  have l3 : I.Less d m lo = true := (K.less d m lo (by omega) (by omega)).2 h3
  simp [dupsProbe, l1, l2, l3]

theorem doPivot_spec (K : Keyed I key) (d : D) (lo hi : Nat) (h12 : lo + 12 < hi)
    (hlen : hi ≤ I.Len d) :
    ∃ (pv : Int), Shuffled I lo hi d (doPivot I d lo hi).1 ∧
      lo ≤ (doPivot I d lo hi).2.1 ∧ (doPivot I d lo hi).2.1 < (doPivot I d lo hi).2.2 ∧
      (doPivot I d lo hi).2.2 ≤ hi ∧
      (∀ x, lo ≤ x → x < (doPivot I d lo hi).2.1 → key (doPivot I d lo hi).1 x ≤ pv) ∧
      (∀ y, (doPivot I d lo hi).2.1 ≤ y → y < (doPivot I d lo hi).2.2 →
        key (doPivot I d lo hi).1 y = pv) ∧
      (∀ z, (doPivot I d lo hi).2.2 ≤ z → z < hi → pv ≤ key (doPivot I d lo hi).1 z) := by
  unfold doPivot
  lift_lets
  extract_lets m s n1 n2 d0 d1 pivot a r d2 b c t q d3 b3 c3 u d4 b4
  have hm : m = lo + (hi - lo) / 2 := rfl
  have hs : s = (hi - lo) / 8 := rfl
  have hpiv : pivot = lo := rfl
  -- the medians
  have hd0 : Shuffled I lo hi d d0 := by
    show Shuffled I lo hi d (if hi - lo > 40 then _ else d)
    split_ifs with h40
    · refine ((medianOfThree_shuffled lo hi d _ _ _ ?_ ?_ ?_).trans
        (medianOfThree_shuffled lo hi _ _ _ _ ?_ ?_ ?_)).trans
        (medianOfThree_shuffled lo hi _ _ _ _ ?_ ?_ ?_) <;> omega
    · exact Shuffled.refl d
  have hl0 : I.Len d0 = I.Len d := hd0.len K
  have hd1 : Shuffled I lo hi d0 d1 :=
    medianOfThree_shuffled lo hi d0 lo m (hi - 1) (by omega) (by omega) (by omega)
  have hle1 : key d1 lo ≤ key d1 (hi - 1) :=
    medianOfThree_le K d0 lo m (hi - 1) (by omega) (by omega) (by omega) (by omega) (by omega)
      (by omega)
  have hl1 : I.Len d1 = I.Len d := by rw [hd1.len K, hl0]
  clear_value d1 d0 n2 n1
  -- the first scan
  obtain ⟨a1, a2, a3, _⟩ := scanLess_spec K d1 lo (hi - 1) (by omega) (by omega)
    (hi - 1 - (lo + 1)) (lo + 1) (by omega) (le_refl _)
  have ha : a = scanLess I d1 lo (hi - 1) (hi - 1 - (lo + 1)) (lo + 1) := rfl
  rw [← ha] at a1 a2 a3
  -- the partition loop
  obtain ⟨r1, r2, r3, r4, r5, r6⟩ := pivotLoop_spec K lo hi (key d1 lo) (hi - 1 - a + 1) d1 a
    (hi - 1) (by omega) a1 a2 (by omega) (by omega) rfl hle1 a3
    (fun z h1 h2 => absurd h1 (by omega))
  have hr : r = pivotLoop I lo (hi - 1 - a + 1) d1 a (hi - 1) := rfl
  rw [← hr] at r1 r2 r3 r4 r5 r6
  have hd2 : d2 = r.1 := rfl
  have hb : b = r.2.1 := rfl
  have hc : c = r.2.2 := rfl
  rw [← hd2] at r1 r5 r6
  rw [← hb] at r2 r3 r5
  rw [← hc] at r2 r4 r6
  have hl2 : I.Len d2 = I.Len d := by rw [r1.len K, hl1]
  have hk2 : key d2 lo = key d1 lo := r1.frame K (by omega) lo (Or.inl (by omega))
  have hk2' : key d2 (hi - 1) = key d1 (hi - 1) := r1.frame K (by omega) (hi - 1) (Or.inr (le_refl _))
  have hleft : ∀ x, lo ≤ x → x < b → key d2 x ≤ key d2 lo := by
    intro x hx1 hx2
    by_cases hx : x = lo
    · rw [hx]
    · rw [hk2]; exact r5 x (by omega) hx2
  -- the probe block never moves anything
  have hq : q.1 = (d2, b, c) := by
    show (if (!decide (hi - c < 5) && decide (hi - c < (hi - lo) / 4)) = true then
      ((t.1, t.2.1, t.2.2.1), decide (t.2.2.2 > 1)) else ((d2, b, c), decide (hi - c < 5))).1
      = (d2, b, c)
    split_ifs with hcond
    · simp only [Bool.and_eq_true, Bool.not_eq_true', decide_eq_false_iff_not,
        decide_eq_true_eq] at hcond
      have ht : t = (d2, b, c, 0) :=
        dupsProbe_idle K d2 lo hi m b c (by omega) (by omega) (by omega) (by omega)
          (by rw [hk2, hk2']; exact hle1) (hleft (b - 1) (by omega) (by omega))
          (hleft m (by omega) (by omega))
      rw [ht]
    · rfl
  have hd3 : d3 = d2 := by show q.1.1 = d2; rw [hq]
  have hb3 : b3 = b := by show q.1.2.1 = b; rw [hq]
  have hc3 : c3 = c := by show q.1.2.2 = c; rw [hq]
  clear_value d3 b3 c3
  subst hd3 hb3 hc3
  have hu : u.1 = d2 ∧ u.2.2 = b := by
    show (if q.2 = true then protectLoop I lo (b - a + 1) d2 a b else (d2, a, b)).1 = d2 ∧
      (if q.2 = true then protectLoop I lo (b - a + 1) d2 a b else (d2, a, b)).2.2 = b
    split_ifs
    · exact protectLoop_idle K d2 lo a b (b - a) (by omega) (by omega)
        (fun x h1 h2 => hleft x (by omega) h2)
    · exact ⟨rfl, rfl⟩
  have hd4 : d4 = d2 := hu.1
  have hb4 : b4 = b := hu.2
  have hpiv' : lo = pivot := hpiv.symm
  clear_value d4 b4 pivot
  subst hd4 hb4 hpiv'
  simp only []
  have hsw := K.key_swap d2 lo (b - 1) (by omega) (by omega)
  refine ⟨key d1 lo, ?_, by omega, by omega, by omega, ?_, ?_, ?_⟩
  · exact (hd0.trans hd1).trans ((r1.mono (by omega) (by omega)).trans
      (Shuffled.swap d2 lo (b - 1) (le_refl _) (by omega) (by omega) (by omega)))
  · intro x hx1 hx2
    rw [hsw x, if_neg (by omega)]
    split_ifs
    · rw [← hk2]; exact hleft (b - 1) (by omega) (by omega)
    · rw [← hk2]; exact hleft x hx1 (by omega)
  · intro y hy1 hy2
    have : y = b - 1 := by omega
    rw [hsw y, if_pos this, hk2]
  · intro z hz1 hz2
    rw [hsw z, if_neg (by omega), if_neg (by omega)]
    by_cases hz : z = hi - 1
    · rw [hz, hk2']; exact hle1
    · exact r6 z hz1 (by omega)

theorem Keyed.swap_left (K : Keyed I key) (d : D) (i j : Nat) (hi : i < I.Len d)
    (hj : j < I.Len d) : key (I.Swap d i j) i = key d j := by
  rw [K.key_swap d i j hi hj i]
  by_cases h : i = j
  · rw [if_pos h, h]
  · rw [if_neg h, if_pos rfl]

theorem Keyed.swap_right (K : Keyed I key) (d : D) (i j : Nat) (hi : i < I.Len d)
    (hj : j < I.Len d) : key (I.Swap d i j) j = key d i := by
  rw [K.key_swap d i j hi hj j, if_pos rfl]

theorem Keyed.swap_other (K : Keyed I key) (d : D) (i j : Nat) (hi : i < I.Len d)
    (hj : j < I.Len d) (k : Nat) (h1 : k ≠ i) (h2 : k ≠ j) : key (I.Swap d i j) k = key d k := by
  rw [K.key_swap d i j hi hj k, if_neg h2, if_neg h1]

theorem siftDownLoop_spec (K : Keyed I key) (hi first lo : Nat) :
    ∀ (n r : Nat) (d : D), first + hi ≤ I.Len d → lo ≤ r → hi ≤ r + n →
      (∀ i, lo ≤ i → i ≠ r → HeapAt key d first hi i) →
      (lo < r → ∀ c, (c = 2 * r + 1 ∨ c = 2 * r + 2) → c < hi →
        key d (first + c) ≤ key d (first + (r - 1) / 2)) →
      Shuffled I (first + lo) (first + hi) d (siftDownLoop I hi first n r d) ∧
        ∀ i, lo ≤ i → HeapAt key (siftDownLoop I hi first n r d) first hi i := by
  intro n
  induction n with
  | zero =>
    intro r d _ _ hn hA _
    refine ⟨Shuffled.refl d, ?_⟩
    intro i hi1
    by_cases hir : i = r
    · exact ⟨fun h => absurd h (by omega), fun h => absurd h (by omega)⟩
    · exact hA i hi1 hir
  | succ n ih =>
    intro r d hlen hlo hn hA hB
    by_cases hleaf : 2 * r + 1 ≥ hi
    · have hstep : siftDownLoop I hi first (n + 1) r d = d := by
        simp only [siftDownLoop, hleaf, if_true]
      rw [hstep]
      refine ⟨Shuffled.refl d, ?_⟩
      intro i hi1
      by_cases hir : i = r
      · exact ⟨fun h => absurd h (by omega), fun h => absurd h (by omega)⟩
      · exact hA i hi1 hir
    · -- the larger child
      obtain ⟨ch, hch, hch1, hch2, hmax⟩ : ∃ ch,
          (if 2 * r + 1 + 1 < hi && I.Less d (first + (2 * r + 1)) (first + (2 * r + 1) + 1)
            then 2 * r + 1 + 1 else 2 * r + 1) = ch ∧ (ch = 2 * r + 1 ∨ ch = 2 * r + 2) ∧
          ch < hi ∧ ∀ c, (c = 2 * r + 1 ∨ c = 2 * r + 2) → c < hi →
            key d (first + c) ≤ key d (first + ch) := by
        by_cases hc : (decide (2 * r + 1 + 1 < hi) &&
            I.Less d (first + (2 * r + 1)) (first + (2 * r + 1) + 1)) = true
        · refine ⟨2 * r + 2, by simp only [hc, if_true], Or.inr rfl, ?_, ?_⟩
          · simp only [Bool.and_eq_true, decide_eq_true_eq] at hc; omega
          · simp only [Bool.and_eq_true, decide_eq_true_eq] at hc
            intro c hc1 hc2
            rcases hc1 with h | h
            · rw [h]
              exact (K.less d _ _ (by omega) (by omega)).1 hc.2
            · rw [h]
        · refine ⟨2 * r + 1, by simp only [hc]; rfl, Or.inl rfl, by omega, ?_⟩
          simp only [Bool.and_eq_true, decide_eq_true_eq, not_and] at hc
          intro c hc1 hc2
          rcases hc1 with h | h
          · rw [h]
          · rw [h]
            have hh := hc (by omega)
            have : ¬ key d (first + (2 * r + 1)) ≤ key d (first + (2 * r + 1) + 1) := fun hle =>
              hh ((K.less d _ _ (by omega) (by omega)).2 hle)
            have e : first + (2 * r + 2) = first + (2 * r + 1) + 1 := by omega
            rw [e]; omega
      by_cases hless : I.Less d (first + r) (first + ch) = true
      · have hstep : siftDownLoop I hi first (n + 1) r d
            = siftDownLoop I hi first n ch (I.Swap d (first + r) (first + ch)) := by
          simp only [siftDownLoop, hleaf, if_false, hch, hless, Bool.not_true]
          rfl
        rw [hstep]
        have hkey : key d (first + r) ≤ key d (first + ch) :=
          (K.less d _ _ (by omega) (by omega)).1 hless
        have hr1 : first + r < I.Len d := by omega
        have hc1 : first + ch < I.Len d := by omega
        have hnode : ∀ i c, lo ≤ i → i ≠ ch → (c = 2 * i + 1 ∨ c = 2 * i + 2) → c < hi →
            key (I.Swap d (first + r) (first + ch)) (first + c)
              ≤ key (I.Swap d (first + r) (first + ch)) (first + i) := by
          intro i c hi1 hi2 hc hchi
          by_cases hir : i = r
          · rw [hir, K.swap_left d _ _ hr1 hc1]
            by_cases hcc : c = ch
            · rw [hcc, K.swap_right d _ _ hr1 hc1]; exact hkey
            · rw [K.swap_other d _ _ hr1 hc1 _ (by omega) (by omega)]
              exact hmax c (by omega) hchi
          · rw [K.swap_other d _ _ hr1 hc1 (first + i) (by omega) (by omega)]
            by_cases hcr : c = r
            · rw [hcr, K.swap_left d _ _ hr1 hc1]
              have hpar : (r - 1) / 2 = i := by omega
              have := hB (by omega) ch hch1 hch2
              rw [hpar] at this; exact this
            · rw [K.swap_other d _ _ hr1 hc1 _ (by omega) (by omega)]
              have hold := hA i hi1 hir
              rcases hc with h | h
              · rw [h]; exact hold.1 (by omega)
              · rw [h]; exact hold.2 (by omega)
        have hrec := ih ch (I.Swap d (first + r) (first + ch)) (by rw [K.len_swap]; exact hlen)
          (by omega) (by omega)
          (fun i hi1 hi2 => ⟨fun h => hnode i _ hi1 hi2 (Or.inl rfl) h,
            fun h => hnode i _ hi1 hi2 (Or.inr rfl) h⟩)
          (by
            intro _ c hc hchi
            have hpar : (ch - 1) / 2 = r := by omega
            rw [hpar, K.swap_left d _ _ hr1 hc1,
              K.swap_other d _ _ hr1 hc1 _ (by omega) (by omega)]
            have hold := hA ch (by omega) (by omega)
            rcases hc with h | h
            · rw [h]; exact hold.1 (by omega)
            · rw [h]; exact hold.2 (by omega))
        refine ⟨?_, hrec.2⟩
        refine Shuffled.trans (Shuffled.swap d (first + r) (first + ch) (by omega) (by omega)
          (by omega) (by omega)) ?_
        exact hrec.1.mono (by omega) (le_refl _)
      · have hstep : siftDownLoop I hi first (n + 1) r d = d := by
          simp only [siftDownLoop, hleaf, if_false, hch, hless]
          rfl
        rw [hstep]
        refine ⟨Shuffled.refl d, ?_⟩
        have hgt : ¬ key d (first + r) ≤ key d (first + ch) := fun hle =>
          hless ((K.less d _ _ (by omega) (by omega)).2 hle)
        intro i hi1
        by_cases hir : i = r
        · rw [hir]
          constructor
          · intro h; have := hmax _ (Or.inl rfl) h; omega
          · intro h; have := hmax _ (Or.inr rfl) h; omega
        · exact hA i hi1 hir

theorem siftDown_spec (K : Keyed I key) (d : D) (lo hi first : Nat)
    (hlen : first + hi ≤ I.Len d) (hA : ∀ i, lo < i → HeapAt key d first hi i) :
    Shuffled I (first + lo) (first + hi) d (siftDown I d lo hi first) ∧
      ∀ i, lo ≤ i → HeapAt key (siftDown I d lo hi first) first hi i :=
  siftDownLoop_spec K hi first lo hi lo d hlen (le_refl lo) (by omega)
    (fun i h1 h2 => hA i (by omega)) (fun h => absurd h (lt_irrefl lo))

theorem heapBuild_spec (K : Keyed I key) (hi first : Nat) :
    ∀ (k : Nat) (d : D), first + hi ≤ I.Len d → (∀ i, k ≤ i → HeapAt key d first hi i) →
      Shuffled I first (first + hi) d (heapBuild I hi first k d) ∧
        ∀ i, HeapAt key (heapBuild I hi first k d) first hi i := by
  intro k
  induction k with
  | zero =>
    intro d _ h
    exact ⟨Shuffled.refl d, fun i => h i (Nat.zero_le i)⟩
  | succ k ih =>
    intro d hlen h
    obtain ⟨s1, s2⟩ := siftDown_spec K d k hi first hlen (fun i hi1 => h i (by omega))
    obtain ⟨r1, r2⟩ := ih (siftDown I d k hi first) (by rw [s1.len K]; exact hlen) s2
    refine ⟨?_, r2⟩
    exact (s1.mono (by omega) (le_refl _)).trans r1

theorem heap_root_max (d : D) (first hi : Nat) (hH : ∀ i, HeapAt key d first hi i) :
    ∀ x, x < hi → key d (first + x) ≤ key d first := by
  intro x
  induction x using Nat.strong_induction_on with
  | _ x ih =>
    intro hx
    by_cases h0 : x = 0
    · rw [h0, Nat.add_zero]
    · have hp := ih ((x - 1) / 2) (by omega) (by omega)
      have hh := hH ((x - 1) / 2)
      have hcase : x = 2 * ((x - 1) / 2) + 1 ∨ x = 2 * ((x - 1) / 2) + 2 := by omega
      rcases hcase with h | h
      · have := hh.1 (by omega)
        rw [← h] at this; omega
      · have := hh.2 (by omega)
        rw [← h] at this; omega

theorem heapPop_spec (K : Keyed I key) (first hi0 : Nat) :
    ∀ (k : Nat) (d : D), first + hi0 ≤ I.Len d → k ≤ hi0 →
      (∀ i, HeapAt key d first k i) →
      (∀ p q, first ≤ p → p < first + k → first + k ≤ q → q < first + hi0 →
        key d p ≤ key d q) →
      SortedOn key d (first + k) (first + hi0) →
      Shuffled I first (first + hi0) d (heapPop I first k d) ∧
        SortedOn key (heapPop I first k d) first (first + hi0) := by
  intro k
  induction k with
  | zero =>
    intro d _ _ _ _ hs
    exact ⟨Shuffled.refl d, hs⟩
  | succ k ih =>
    intro d hlen hk hH hsplit hs
    have hf : first < I.Len d := by omega
    have hfk : first + k < I.Len d := by omega
    have hroot := heap_root_max d first (k + 1) hH
    -- the keys after the swap
    have hsw_hi : key (I.Swap d first (first + k)) (first + k) = key d first :=
      K.swap_right d _ _ hf hfk
    have hsw_lo : ∀ p, first ≤ p → p < first + k →
        key (I.Swap d first (first + k)) p ≤ key d first := by
      intro p hp1 hp2
      by_cases hp : p = first
      · rw [hp, K.swap_left d _ _ hf hfk]
        exact hroot k (by omega)
      · rw [K.swap_other d _ _ hf hfk p hp (by omega)]
        have := hroot (p - first) (by omega)
        rw [show first + (p - first) = p by omega] at this
        exact this
    have hsw_up : ∀ q, first + k < q → key (I.Swap d first (first + k)) q = key d q :=
      fun q hq => K.swap_other d _ _ hf hfk q (by omega) (by omega)
    have hlen' : I.Len (I.Swap d first (first + k)) = I.Len d := K.len_swap _ _ _
    obtain ⟨s1, s2⟩ := siftDown_spec K (I.Swap d first (first + k)) 0 k first
      (by rw [hlen']; omega)
      (by
        intro i hi1
        have hold := hH i
        constructor
        · intro h
          rw [K.swap_other d _ _ hf hfk _ (by omega) (by omega),
            K.swap_other d _ _ hf hfk _ (by omega) (by omega)]
          exact hold.1 (by omega)
        · intro h
          rw [K.swap_other d _ _ hf hfk _ (by omega) (by omega),
            K.swap_other d _ _ hf hfk _ (by omega) (by omega)]
          exact hold.2 (by omega))
    rw [Nat.add_zero] at s1
    have hstep : heapPop I first (k + 1) d
        = heapPop I first k (siftDown I (I.Swap d first (first + k)) 0 k first) := rfl
    rw [hstep]
    generalize siftDown I (I.Swap d first (first + k)) 0 k first = e at s1 s2
    have hle : I.Len e = I.Len d := by rw [s1.len K, hlen']
    have hfr : ∀ q, first + k ≤ q → key e q = key (I.Swap d first (first + k)) q :=
      fun q hq => s1.frame K (by rw [hlen']; omega) q (Or.inr hq)
    obtain ⟨r1, r2⟩ := ih e (by omega) (by omega) (fun i => s2 i (Nat.zero_le i))
      (by
        intro p q hp1 hp2 hq1 hq2
        rw [hfr q hq1]
        by_cases hqk : q = first + k
        · rw [hqk, hsw_hi]
          exact s1.keys_le K (by rw [hlen']; omega) _ hsw_lo p hp1 hp2
        · rw [hsw_up q (by omega)]
          refine s1.keys_le K (by rw [hlen']; omega) _ ?_ p hp1 hp2
          intro p' hp1' hp2'
          by_cases hp : p' = first
          · rw [hp, K.swap_left d _ _ hf hfk]
            exact hsplit (first + k) q (by omega) (by omega) (by omega) hq2
          · rw [K.swap_other d _ _ hf hfk p' hp (by omega)]
            exact hsplit p' q hp1' (by omega) (by omega) hq2)
      (by
        intro x y hx hxy hy
        rw [hfr x hx, hfr y (by omega)]
        by_cases hxk : x = first + k
        · by_cases hyk : y = first + k
          · rw [hxk, hyk]
          · rw [hxk, hsw_hi, hsw_up y (by omega)]
            exact hsplit first y (le_refl _) (by omega) (by omega) hy
        · rw [hsw_up x (by omega), hsw_up y (by omega)]
          exact hs x y (by omega) hxy hy)
    refine ⟨?_, r2⟩
    refine Shuffled.trans (Shuffled.swap d first (first + k) (le_refl _) (by omega) (by omega)
      (by omega)) ?_
    exact (s1.mono (le_refl _) (by omega)).trans r1

theorem heapSort_spec (K : Keyed I key) (d : D) (a b : Nat) (hab : a ≤ b) (hb : b ≤ I.Len d) :
    Shuffled I a b d (heapSort I d a b) ∧ SortedOn key (heapSort I d a b) a b := by
  unfold heapSort
  simp only []
  have e : a + (b - a) = b := by omega
  obtain ⟨s1, s2⟩ := heapBuild_spec K (b - a) a ((b - a - 1) / 2 + 1) d (by omega)
    (fun i hi1 => ⟨fun h => absurd h (by omega), fun h => absurd h (by omega)⟩)
  generalize heapBuild I (b - a) a ((b - a - 1) / 2 + 1) d = e1 at s1 s2
  obtain ⟨r1, r2⟩ := heapPop_spec K a (b - a) (b - a) e1 (by rw [s1.len K]; omega) (le_refl _) s2
    (fun p q _ _ h3 h4 => absurd h3 (by omega))
    (fun x y h1 h2 h3 => absurd h3 (by omega))
  rw [e] at s1 r1 r2
  exact ⟨s1.trans r1, r2⟩

theorem sortedOn_of_parts (d : D) (a b mlo mhi : Nat) (pv : Int)
    (h1 : SortedOn key d a mlo) (h2 : SortedOn key d mhi b)
    (hL : ∀ x, a ≤ x → x < mlo → key d x ≤ pv)
    (hM : ∀ y, mlo ≤ y → y < mhi → key d y = pv)
    (hR : ∀ z, mhi ≤ z → z < b → pv ≤ key d z) : SortedOn key d a b := by
  intro x y hx hxy hy
  by_cases hx1 : x < mlo
  · by_cases hy1 : y < mlo
    · exact h1 x y hx hxy hy1
    · have := hL x hx hx1
      by_cases hy2 : y < mhi
      · have := hM y (by omega) hy2; omega
      · have := hR y (by omega) hy; omega
  · by_cases hx2 : x < mhi
    · have := hM x (by omega) hx2
      by_cases hy2 : y < mhi
      · have := hM y (by omega) hy2; omega
      · have := hR y (by omega) hy; omega
    · exact h2 x y (by omega) hxy hy

theorem quickSort_spec (K : Keyed I key) :
    ∀ (maxDepth : Nat) (d : D) (a b : Nat), b ≤ I.Len d →
      Shuffled I a b d (quickSort I maxDepth d a b) ∧
        SortedOn key (quickSort I maxDepth d a b) a b := by
  have hsmall : ∀ (d : D) (a b : Nat), b ≤ I.Len d → ¬ b - a > 12 →
      Shuffled I a b d (if b - a > 1 then
          insertionSort I (shellPass I b (b - (a + 6)) (a + 6) d) a b else d) ∧
        SortedOn key (if b - a > 1 then
          insertionSort I (shellPass I b (b - (a + 6)) (a + 6) d) a b else d) a b := by
    intro d a b hb _
    split_ifs with h1
    · exact smallSort_spec K d a b hb
    · refine ⟨Shuffled.refl d, ?_⟩
      intro x y hx hxy hy
      have : x = y := by omega
      rw [this]
  intro maxDepth
  induction maxDepth with
  | zero =>
    intro d a b hb
    by_cases h12 : b - a > 12
    · have hstep : quickSort I 0 d a b = heapSort I d a b := by
        simp only [quickSort, h12, if_true]
      rw [hstep]
      exact heapSort_spec K d a b (by omega) hb
    · have hstep : quickSort I 0 d a b = (if b - a > 1 then
          insertionSort I (shellPass I b (b - (a + 6)) (a + 6) d) a b else d) := by
        simp only [quickSort, h12, if_false]
      rw [hstep]
      exact hsmall d a b hb h12
  | succ n ih =>
    intro d a b hb
    by_cases h12 : b - a > 12
    · obtain ⟨pv, p1, p2, p3, p4, p5, p6, p7⟩ := doPivot_spec K d a b (by omega) hb
      have hstep : quickSort I (n + 1) d a b =
          (if (doPivot I d a b).2.1 - a < b - (doPivot I d a b).2.2 then
            quickSort I n (quickSort I n (doPivot I d a b).1 a (doPivot I d a b).2.1)
              (doPivot I d a b).2.2 b
          else quickSort I n (quickSort I n (doPivot I d a b).1 (doPivot I d a b).2.2 b)
              a (doPivot I d a b).2.1) := by
        simp only [quickSort, h12, if_true]
      rw [hstep]
      generalize doPivot I d a b = r at p1 p2 p3 p4 p5 p6 p7
      obtain ⟨e, mlo, mhi⟩ := r
      simp only [] at p1 p2 p3 p4 p5 p6 p7 ⊢
      have hle : I.Len e = I.Len d := p1.len K
      split_ifs with hside
      · obtain ⟨q1, q2⟩ := ih e a mlo (by omega)
        generalize quickSort I n e a mlo = e1 at q1 q2
        have hle1 : I.Len e1 = I.Len d := by rw [q1.len K, hle]
        obtain ⟨r1, r2⟩ := ih e1 mhi b (by omega)
        generalize quickSort I n e1 mhi b = e2 at r1 r2
        have f1 : ∀ k, mlo ≤ k → key e1 k = key e k :=
          fun k hk => q1.frame K (by omega) k (Or.inr hk)
        have f2 : ∀ k, k < mhi → key e2 k = key e1 k :=
          fun k hk => r1.frame K (by omega) k (Or.inl hk)
        refine ⟨p1.trans ((q1.mono (le_refl _) (by omega)).trans (r1.mono (by omega) (le_refl _))),
          ?_⟩
        apply sortedOn_of_parts e2 a b mlo mhi pv
        · intro x y hx hxy hy
          rw [f2 x (by omega), f2 y (by omega)]
          exact q2 x y hx hxy hy
        · exact r2
        · intro x hx1 hx2
          rw [f2 x (by omega)]
          exact q1.keys_le K (by omega) pv p5 x hx1 hx2
        · intro y hy1 hy2
          rw [f2 y hy2, f1 y hy1]
          exact p6 y hy1 hy2
        · refine r1.keys_ge K (by omega) pv ?_
          intro z hz1 hz2
          rw [f1 z (by omega)]
          exact p7 z hz1 hz2
      · obtain ⟨q1, q2⟩ := ih e mhi b (by omega)
        generalize quickSort I n e mhi b = e1 at q1 q2
        have hle1 : I.Len e1 = I.Len d := by rw [q1.len K, hle]
        obtain ⟨r1, r2⟩ := ih e1 a mlo (by omega)
        generalize quickSort I n e1 a mlo = e2 at r1 r2
        have f1 : ∀ k, k < mhi → key e1 k = key e k :=
          fun k hk => q1.frame K (by omega) k (Or.inl hk)
        have f2 : ∀ k, mlo ≤ k → key e2 k = key e1 k :=
          fun k hk => r1.frame K (by omega) k (Or.inr hk)
        refine ⟨p1.trans ((q1.mono (by omega) (le_refl _)).trans (r1.mono (le_refl _) (by omega))),
          ?_⟩
        apply sortedOn_of_parts e2 a b mlo mhi pv
        · exact r2
        · intro x y hx hxy hy
          rw [f2 x (by omega), f2 y (by omega)]
          exact q2 x y hx hxy hy
        · refine r1.keys_le K (by omega) pv ?_
          intro x hx1 hx2
          rw [f1 x (by omega)]
          exact p5 x hx1 hx2
        · intro y hy1 hy2
          rw [f2 y hy1, f1 y hy2]
          exact p6 y hy1 hy2
        · intro z hz1 hz2
          rw [f2 z (by omega)]
          exact q1.keys_ge K (by omega) pv p7 z hz1 hz2
    · have hstep : quickSort I (n + 1) d a b = (if b - a > 1 then
          insertionSort I (shellPass I b (b - (a + 6)) (a + 6) d) a b else d) := by
        simp only [quickSort, h12, if_false]
      rw [hstep]
      exact hsmall d a b hb h12

theorem sortSort_spec (K : Keyed I key) (d : D) :
    Shuffled I 0 (I.Len d) d (sortSort I d) ∧ SortedOn key (sortSort I d) 0 (I.Len d) :=
  quickSort_spec K (maxDepth (I.Len d)) d 0 (I.Len d) (le_refl _)

theorem byReviewd.at_eq (a : byReviewd) (i : Nat) (h : i < a.length) : a.at i = a[i] := by
  unfold byReviewd.at
  exact List.getD_eq_getElem a default h

theorem byReviewd.at_set (a : byReviewd) (i k : Nat) (x : Contributes) (h : i < a.length) :
    byReviewd.at (a.set i x) k = if k = i then x else a.at k := by
  unfold byReviewd.at
  simp only [List.getD_eq_getElem?_getD, List.getElem?_set]
  by_cases hk : k = i
  · simp [hk, h]
  · simp [hk, Ne.symm hk]

theorem byReviewd.at_swap (a : byReviewd) (i j : Nat) (hi : i < a.length) (hj : j < a.length)
    (k : Nat) :
    (a.Swap i j).at k = if k = j then a.at i else if k = i then a.at j else a.at k := by
  unfold byReviewd.Swap
  rw [byReviewd.at_set _ j k _ (by rw [List.length_set]; exact hj), byReviewd.at_set a i k _ hi]

theorem byReviewd.swap_perm (a : byReviewd) (i j : Nat) (hi : i < a.length) (hj : j < a.length) :
    List.Perm (a.Swap i j) a := by
  rw [List.perm_iff_count]
  intro b
  unfold byReviewd.Swap
  have hj' : j < (a.set i (a.at j)).length := by rw [List.length_set]; exact hj
  rw [List.count_set _ _ _ _ hj', List.count_set _ _ _ _ hi]
  have e1 : (a.set i (a.at j))[j] = a[j] := by
    rw [List.getElem_set]
    split_ifs with h
    · subst h; exact byReviewd.at_eq a i hi
    · rfl
  rw [e1, byReviewd.at_eq a i hi, byReviewd.at_eq a j hj]
  have hpos : (if (a[i] == b) = true then 1 else 0) ≤ List.count b a := by
    split_ifs with h
    · have hb : a[i] = b := by simpa using h
      exact List.count_pos_iff.2 (hb ▸ List.getElem_mem hi)
    · exact Nat.zero_le _
  omega

theorem byReviewd_keyed : Keyed byReviewdInterface byReviewd.key where
  less := by
    intro d i j _ _
    show decide ((byReviewd.at d i).reviews ≥ (byReviewd.at d j).reviews) = true ↔
      -(byReviewd.at d i).reviews ≤ -(byReviewd.at d j).reviews
    rw [decide_eq_true_eq]
    omega
  len_swap := by
    intro d i j
    show ((d.set i (byReviewd.at d j)).set j (byReviewd.at d i)).length = d.length
    rw [List.length_set, List.length_set]
  key_swap := by
    intro d i j hi hj k
    show -(byReviewd.at (byReviewd.Swap d i j) k).reviews = _
    rw [byReviewd.at_swap d i j hi hj k]
    unfold byReviewd.key
    split_ifs <;> rfl

theorem shuffled_perm {a b : Nat} {d e : byReviewd} (h : Shuffled byReviewdInterface a b d e)
    (hb : b ≤ d.length) : List.Perm e d := by
  induction h with
  | refl => exact List.Perm.refl _
  | step i j hi1 hi2 hj1 hj2 hs ih =>
    have hl : List.length _ = List.length d := hs.len byReviewd_keyed
    exact (byReviewd.swap_perm _ i j (by omega) (by omega)).trans ih

/-- `sort.Sort(byReviewd(contributes))` rearranges the records. -/
theorem sortSort_perm (cs : List Contributes) :
    List.Perm (sortSort byReviewdInterface cs) cs :=
  shuffled_perm (sortSort_spec byReviewd_keyed cs).1 (le_refl _)

/-- After `sort.Sort(byReviewd(contributes))` review counts never increase along the
slice. -/
theorem sortSort_sorted (cs : List Contributes) :
    List.Pairwise (fun x y => y.reviews ≤ x.reviews) (sortSort byReviewdInterface cs) := by
  obtain ⟨h1, h2⟩ := sortSort_spec byReviewd_keyed cs
  have hl : (sortSort byReviewdInterface cs).length = cs.length := h1.len byReviewd_keyed
  rw [List.pairwise_iff_getElem]
  intro i j hi hj hij
  have := h2 i j (Nat.zero_le _) (le_of_lt hij)
    (show j < List.length cs by rw [← hl]; exact hj)
  unfold byReviewd.key at this
  rw [byReviewd.at_eq _ i hi, byReviewd.at_eq _ j hj] at this
  omega

end sortproofs

theorem printRows_eq {σ : Type} (l : List Contributes) (w : TabWriter) (p : Proc σ) :
    printRows l w p
      = Res.ret { w with buf := w.buf ++ (l.filter fun c => decide (0 < c.reviews)).map formatRow } p := by
  induction l generalizing w with
  | nil => simp [printRows]
  | cons c rest ih =>
    by_cases hc : c.reviews ≤ 0
    · have hf : decide (0 < c.reviews) = false := by simpa using hc
      simp only [printRows, hc, if_true, ih, List.filter_cons, hf]
      rfl
    · have hf : decide (0 < c.reviews) = true := by simpa using hc
      simp only [printRows, hc, if_false, Fprintf, ih, List.filter_cons, hf, if_true,
        List.map_cons, List.append_assoc, List.singleton_append]

theorem printContributes_eq {σ : Type} (contributes : List Contributes) (output : String)
    (p : Proc σ) :
    printContributes contributes output p
      = Res.ret () { p with stdout := p.stdout ++ [Output.table
          { GetNewTabWriter with buf := (String.intercalate "\t" headers ++ "\n") ::
            ((sortSort byReviewdInterface contributes).filter
              fun c => decide (0 < c.reviews)).map formatRow }] } := by
  simp only [printContributes, Fprintf, printRows_eq, GetNewTabWriter, List.nil_append,
    List.singleton_append]

theorem dataRows_append_table {σ : Type} (p : Proc σ) (hd : String) (rows : List String) :
    dataRows { p with stdout := p.stdout ++
      [Output.table { GetNewTabWriter with buf := hd :: rows }] } = dataRows p ++ rows := by
  simp [dataRows]

/-- C1: the data rows `printContributes` writes are those of a list of records whose review
counts never increase from one row to the next. -/
theorem printContributes_rows_descending {σ : Type} (contributes : List Contributes)
    (output : String) (p : Proc σ) :
    dataRows (printContributes contributes output p).proc
        = dataRows p ++ ((sortSort byReviewdInterface contributes).filter
            fun c => decide (0 < c.reviews)).map formatRow ∧
      List.Chain' (fun earlier later => earlier.reviews ≥ later.reviews)
        ((sortSort byReviewdInterface contributes).filter fun c => decide (0 < c.reviews)) := by
  constructor
  · rw [printContributes_eq]
    exact dataRows_append_table p _ _
  · exact ((sortSort_sorted contributes).filter _).chain'

/-- C2: the data rows are exactly the rows of the records with a positive review count,
each once: the printed records are a rearrangement of the input records whose count is
above zero. With members A(5), B(0), C(2) the rows are those of A, then C. -/
theorem printContributes_rows_exact :
    (∀ (σ : Type) (contributes : List Contributes) (output : String) (p : Proc σ),
      ∃ printed : List Contributes,
        (printContributes contributes output p).proc.stdout = p.stdout ++ [Output.table
          { GetNewTabWriter with
            buf := (String.intercalate "\t" headers ++ "\n") :: printed.map formatRow }] ∧
        dataRows (printContributes contributes output p).proc
          = dataRows p ++ printed.map formatRow ∧
        List.Perm printed (contributes.filter fun c => decide (0 < c.reviews)) ∧
        (∀ c ∈ printed, 0 < c.reviews) ∧
        (∀ c ∈ contributes, c.reviews ≤ 0 → c ∉ printed) ∧
        (∀ c ∈ contributes, 0 < c.reviews → List.count c printed = List.count c contributes)) ∧
    dataRows (printContributes
        [⟨"A", "a", "x", "a@x", 5⟩, ⟨"B", "b", "y", "b@y", 0⟩, ⟨"C", "c", "z", "c@z", 2⟩] ""
        (⟨(), [], []⟩ : Proc Unit)).proc
      = ["A\ta\tx\ta@x\t5\n", "C\tc\tz\tc@z\t2\n"] := by
  refine ⟨?_, by decide⟩
  intro σ contributes output p
  have hperm : List.Perm ((sortSort byReviewdInterface contributes).filter
      fun c => decide (0 < c.reviews)) (contributes.filter fun c => decide (0 < c.reviews)) :=
    (sortSort_perm contributes).filter _
  refine ⟨(sortSort byReviewdInterface contributes).filter fun c => decide (0 < c.reviews),
    ?_, ?_, hperm, ?_, ?_, ?_⟩
  · rw [printContributes_eq]; rfl
  · rw [printContributes_eq]; exact dataRows_append_table p _ _
  · intro c hc
    simpa using (List.mem_filter.1 hc).2
  · intro c _ hle hc
    have : 0 < c.reviews := by simpa using (List.mem_filter.1 hc).2
    omega
  · intro c _ hpos
    rw [hperm.count_eq, List.count_filter]
    simpa using hpos

theorem toString_of_pos (n : Int) (h : 0 < n) : toString n = toString n.toNat := by
  cases n with
  | ofNat m => rfl
  | negSucc m => exact absurd h (by simp)

/-- C10: on valid indices `Less(i, j)` holds exactly when `a[i].reviews >= a[j].reviews`;
hence it is total, transitive and reflexive, and holds both ways between equal counts. -/
theorem byReviewd_Less_iff (a : byReviewd) (i j k : Nat) (hi : i < a.length)
    (hj : j < a.length) (hk : k < a.length) :
    (byReviewd.Less a i j = true ↔ a[i].reviews ≥ a[j].reviews) ∧
      (byReviewd.Less a i j = true ∨ byReviewd.Less a j i = true) ∧
      (byReviewd.Less a i j = true → byReviewd.Less a j k = true → byReviewd.Less a i k = true) ∧
      byReviewd.Less a i i = true ∧
      (a[i].reviews = a[j].reviews →
        byReviewd.Less a i j = true ∧ byReviewd.Less a j i = true) := by
  unfold byReviewd.Less
  rw [byReviewd.at_eq a i hi, byReviewd.at_eq a j hj, byReviewd.at_eq a k hk]
  refine ⟨decide_eq_true_iff, ?_, ?_, ?_, ?_⟩
  · simp only [decide_eq_true_eq]; omega
  · simp only [decide_eq_true_eq]; omega
  · simp only [decide_eq_true_eq]; omega
  · simp only [decide_eq_true_eq]; omega

/-- C10, on the slice A(5), B(0), C(0) at indices 1, 2, 0: `Less(1, 2)` and `Less(2, 1)` both
hold between the two equal counts. -/
theorem byReviewd_Less_iff_witness :
    (byReviewd.Less [⟨"A", "", "", "", 5⟩, ⟨"B", "", "", "", 0⟩, ⟨"C", "", "", "", 0⟩] 1 2 = true ↔
        (0 : Int) ≥ 0) ∧
      (byReviewd.Less [⟨"A", "", "", "", 5⟩, ⟨"B", "", "", "", 0⟩, ⟨"C", "", "", "", 0⟩] 1 2 = true ∨
        byReviewd.Less [⟨"A", "", "", "", 5⟩, ⟨"B", "", "", "", 0⟩, ⟨"C", "", "", "", 0⟩] 2 1 = true) ∧
      (byReviewd.Less [⟨"A", "", "", "", 5⟩, ⟨"B", "", "", "", 0⟩, ⟨"C", "", "", "", 0⟩] 1 2 = true →
        byReviewd.Less [⟨"A", "", "", "", 5⟩, ⟨"B", "", "", "", 0⟩, ⟨"C", "", "", "", 0⟩] 2 0 = true →
        byReviewd.Less [⟨"A", "", "", "", 5⟩, ⟨"B", "", "", "", 0⟩, ⟨"C", "", "", "", 0⟩] 1 0 = true) ∧
      byReviewd.Less [⟨"A", "", "", "", 5⟩, ⟨"B", "", "", "", 0⟩, ⟨"C", "", "", "", 0⟩] 1 1 = true ∧
      ((0 : Int) = 0 →
        byReviewd.Less [⟨"A", "", "", "", 5⟩, ⟨"B", "", "", "", 0⟩, ⟨"C", "", "", "", 0⟩] 1 2 = true ∧
        byReviewd.Less [⟨"A", "", "", "", 5⟩, ⟨"B", "", "", "", 0⟩, ⟨"C", "", "", "", 0⟩] 2 1 = true) :=
  byReviewd_Less_iff [⟨"A", "", "", "", 5⟩, ⟨"B", "", "", "", 0⟩, ⟨"C", "", "", "", 0⟩] 1 2 0
    (by decide) (by decide) (by decide)

theorem Duration.add_exact (x y : Int) (h1 : minDuration ≤ x + y) (h2 : x + y ≤ maxDuration) :
    Duration.add x y = x + y := by
  unfold Duration.add
  unfold minDuration at h1
  unfold maxDuration at h2
  omega

theorem Time.Sub_exact (t u : Int) (h1 : minDuration ≤ t - u) (h2 : t - u ≤ maxDuration) :
    Time.Sub t u = t - u := by
  unfold Time.Sub
  rw [if_neg (by omega), if_neg (by omega)]

/-- C5 as stated fails when the reset instant is further away than a `time.Duration`
holds: with one call left, the clock at 0 and the reset `2^63` ns away, the wait requested
is negative, not `(T - now) + 1s`, and the run goes on at time 0, before `T + 1s`. -/
theorem sleepIfRateLimitExceeded_far_reset :
    (sleepIfRateLimitExceeded farReset.env (Proc.start 0)).trace
        = [Event.RateLimits true, Event.Sleep (-9223372035854775809)] ∧
      (-9223372035854775809 : Int) ≠ (9223372036854775808 - 0) + Second ∧
      farReset.env.Now (sleepIfRateLimitExceeded farReset.env (Proc.start 0)).world
        < 9223372036854775808 + Second := by
  decide

/-- C5, amended: after a successful rate-limit read with search quota `r` and reset `T` at
time `now`, if `r = 1` and `(T - now) + 1s` fits a `time.Duration` the wait requested is
exactly `(T - now) + 1s`, and on a clock that `time.Sleep(d)` advances by at least `d` the
run continues no earlier than `T + 1s`; if `r ≠ 1` (0 included) no wait is requested. -/
theorem sleepIfRateLimitExceeded_wait {σ : Type} (E : Env σ) (p : Proc σ)
    (rateLimit : RateLimits) (s : σ)
    (hrate : E.RateLimits p.world = (Except.ok rateLimit, s))
    (hclock : ∀ d w, E.Now w + d ≤ E.Now (E.Sleep d w)) :
    (rateLimit.Search.Remaining = 1 →
      minDuration ≤ rateLimit.Search.Reset - E.Now s →
      rateLimit.Search.Reset - E.Now s + Second ≤ maxDuration →
        sleepIfRateLimitExceeded E p =
          { world := E.Sleep (rateLimit.Search.Reset - E.Now s + Second) s,
            trace := p.trace ++ [Event.RateLimits true,
              Event.Sleep (rateLimit.Search.Reset - E.Now s + Second)],
            stdout := p.stdout } ∧
        rateLimit.Search.Reset + Second ≤ E.Now (sleepIfRateLimitExceeded E p).world) ∧
    (rateLimit.Search.Remaining ≠ 1 →
      sleepIfRateLimitExceeded E p =
        { world := s, trace := p.trace ++ [Event.RateLimits true], stdout := p.stdout }) := by
  constructor
  · intro h1 hlo hhi
    have hsec : Second = 1000000000 := rfl
    have hsub : Time.Sub rateLimit.Search.Reset (E.Now s) = rateLimit.Search.Reset - E.Now s :=
      Time.Sub_exact _ _ hlo (by omega)
    have hadd : Duration.add (rateLimit.Search.Reset - E.Now s) Second
        = rateLimit.Search.Reset - E.Now s + Second :=
      Duration.add_exact _ _ (by omega) hhi
    have heq : sleepIfRateLimitExceeded E p =
        { world := E.Sleep (rateLimit.Search.Reset - E.Now s + Second) s,
          trace := p.trace ++ [Event.RateLimits true,
            Event.Sleep (rateLimit.Search.Reset - E.Now s + Second)],
          stdout := p.stdout } := by
      simp only [sleepIfRateLimitExceeded, hrate, h1, if_true, hsub, hadd]
    refine ⟨heq, ?_⟩
    rw [heq]
    have := hclock (rateLimit.Search.Reset - E.Now s + Second) s
    simp only []
    omega
  · intro h1
    simp only [sleepIfRateLimitExceeded, hrate, h1, if_false]

/-- C5 amended, with one call left, the clock at 0 and the reset at second 5: a wait of 6
seconds is requested and the run continues at second 6; with 30 calls left no wait is
requested. -/
theorem sleepIfRateLimitExceeded_wait_witness :
    (sleepIfRateLimitExceeded soonReset.env (Proc.start 0) =
        { world := 6000000000,
          trace := [Event.RateLimits true, Event.Sleep 6000000000],
          stdout := [] } ∧
      (5000000000 : Int) + Second
        ≤ soonReset.env.Now (sleepIfRateLimitExceeded soonReset.env (Proc.start 0)).world) ∧
    sleepIfRateLimitExceeded scenario.env (Proc.start 0) =
      { world := 0, trace := [Event.RateLimits true], stdout := [] } :=
  ⟨(sleepIfRateLimitExceeded_wait soonReset.env (Proc.start 0) (rateOf 1 5000000000) 0 rfl
      (by
        intro d w
        show w + d ≤ (if 0 < d then w + d else w)
        split_ifs <;> omega)).1 rfl (by decide) (by decide),
    (sleepIfRateLimitExceeded_wait scenario.env (Proc.start 0) (rateOf 30 0) 0 rfl
      (by
        intro d w
        show w + d ≤ (if 0 < d then w + d else w)
        split_ifs <;> omega)).2 (by decide)⟩

/-- C6: the query submitted is `is:pr repo:ORG/REPO reviewed-by:AUTHOR -author:AUTHOR`, and
when the search succeeds the value returned is the total of the result set (`GetTotal`),
whatever the number of issues enumerated in the response. -/
theorem GetReviewedNumbers_query {σ : Type} (E : Env σ) (org repo author : String)
    (p : Proc σ) :
    (∃ ok, (GetReviewedNumbers E org repo author p).proc.trace
      = (sleepIfRateLimitExceeded E p).trace ++ [Event.SearchIssues
          ("is:pr repo:" ++ org ++ "/" ++ repo ++ " reviewed-by:" ++ author ++ " -author:"
            ++ author) ok]) ∧
    (∀ (r : IssuesSearchResult) (s : σ),
      E.SearchIssues ("is:pr repo:" ++ org ++ "/" ++ repo ++ " reviewed-by:" ++ author
          ++ " -author:" ++ author) (sleepIfRateLimitExceeded E p).world = (Except.ok r, s) →
        GetReviewedNumbers E org repo author p
          = Res.ret r.GetTotal
              { world := s,
                trace := (sleepIfRateLimitExceeded E p).trace ++ [Event.SearchIssues
                  ("is:pr repo:" ++ org ++ "/" ++ repo ++ " reviewed-by:" ++ author
                    ++ " -author:" ++ author) true],
                stdout := (sleepIfRateLimitExceeded E p).stdout } ∧
        (∀ t, r.Total = some t → r.GetTotal = t)) := by
  constructor
  · unfold GetReviewedNumbers
    simp only []
    split
    · exact ⟨false, rfl⟩
    · exact ⟨true, rfl⟩
  · intro r s h
    constructor
    · simp only [GetReviewedNumbers, h]
    · intro t ht
      simp only [IssuesSearchResult.GetTotal, ht]

/-- C6 in the scenario, for member A: the query names the organization, the repository
and A twice, and the call returns the total 5 although 2 issues are enumerated. -/
theorem GetReviewedNumbers_query_witness :
    (GetReviewedNumbers scenario.env "k8smeetup" "kubernetes.github.io" "A" (Proc.start 0)
        = Res.ret 5
            { world := (0 : Int),
              trace := [Event.RateLimits true, Event.SearchIssues
                "is:pr repo:k8smeetup/kubernetes.github.io reviewed-by:A -author:A" true],
              stdout := [] } ∧
      (∀ t, (some 5 : Option Int) = some t →
        IssuesSearchResult.GetTotal ⟨some 5, ["pr1", "pr2"]⟩ = t)) ∧
    (["pr1", "pr2"] : List String).length = 2 :=
  ⟨(GetReviewedNumbers_query scenario.env "k8smeetup" "kubernetes.github.io" "A"
      (Proc.start 0)).2 ⟨some 5, ["pr1", "pr2"]⟩ 0 rfl, rfl⟩

/-- C3: for a member whose profile lookup returns `u`, the record `main` appends has the
member's login unchanged and name, company and email equal to the profile's value when
present and to "<none>" when absent; with all three absent all three are "<none>". -/
theorem mainLoop_builds_record {σ : Type} (E : Env σ) (flags : Flags) (user : User)
    (rest : List User) (contributes : List Contributes) (p p1 p2 : Proc σ) (id : Int)
    (login : String) (u : User) (n : Int)
    (hid : user.ID = some id) (hlogin : user.Login = some login)
    (hu : GetUserInfo E id p = Res.ret u p1)
    (hn : GetReviewedNumbers E flags.organization flags.repository login p1 = Res.ret n p2) :
    ∃ contri : Contributes,
      mainLoop E flags (user :: rest) contributes p
        = mainLoop E flags rest (contributes ++ [contri]) p2 ∧
      contri.login = login ∧ contri.reviews = n ∧
      (∀ v, u.Name = some v → contri.name = v) ∧ (u.Name = none → contri.name = "<none>") ∧
      (∀ v, u.Company = some v → contri.company = v) ∧
      (u.Company = none → contri.company = "<none>") ∧
      (∀ v, u.Email = some v → contri.email = v) ∧ (u.Email = none → contri.email = "<none>") ∧
      (u.Name = none → u.Company = none → u.Email = none →
        contri.name = "<none>" ∧ contri.company = "<none>" ∧ contri.email = "<none>") := by
  refine ⟨{ newContributes login u with reviews := n }, ?_, rfl, rfl, ?_, ?_, ?_, ?_, ?_, ?_, ?_⟩
  · simp only [mainLoop, hid, hu, hlogin, hn]
  · intro v hv; simp only [newContributes, hv]
  · intro hv; simp only [newContributes, hv]
  · intro v hv; simp only [newContributes, hv]
  · intro hv; simp only [newContributes, hv]
  · intro v hv; simp only [newContributes, hv]
  · intro hv; simp only [newContributes, hv]
  · intro h1 h2 h3; simp only [newContributes, h1, h2, h3, and_self]

/-- C3 in the scenario, for member B whose profile has no name, company or email. -/
theorem mainLoop_builds_record_witness :
    ∃ contri : Contributes,
      mainLoop scenario.env defaultFlags [memberOf 2 "B"] [] (Proc.start 0)
        = mainLoop scenario.env defaultFlags [] ([] ++ [contri])
            { world := 0,
              trace := [Event.RateLimits true, Event.GetByID 2 true, Event.RateLimits true,
                Event.SearchIssues
                  "is:pr repo:k8smeetup/kubernetes.github.io reviewed-by:B -author:B" true],
              stdout := [] } ∧
      contri.login = "B" ∧ contri.reviews = 0 ∧
      (∀ v, (memberOf 2 "B").Name = some v → contri.name = v) ∧
      ((memberOf 2 "B").Name = none → contri.name = "<none>") ∧
      (∀ v, (memberOf 2 "B").Company = some v → contri.company = v) ∧
      ((memberOf 2 "B").Company = none → contri.company = "<none>") ∧
      (∀ v, (memberOf 2 "B").Email = some v → contri.email = v) ∧
      ((memberOf 2 "B").Email = none → contri.email = "<none>") ∧
      ((memberOf 2 "B").Name = none → (memberOf 2 "B").Company = none →
        (memberOf 2 "B").Email = none →
        contri.name = "<none>" ∧ contri.company = "<none>" ∧ contri.email = "<none>") :=
  mainLoop_builds_record scenario.env defaultFlags (memberOf 2 "B") [] [] (Proc.start 0)
    { world := 0, trace := [Event.RateLimits true, Event.GetByID 2 true], stdout := [] }
    { world := 0,
      trace := [Event.RateLimits true, Event.GetByID 2 true, Event.RateLimits true,
        Event.SearchIssues "is:pr repo:k8smeetup/kubernetes.github.io reviewed-by:B -author:B"
          true],
      stdout := [] }
    2 "B" (memberOf 2 "B") 0 rfl rfl rfl rfl

theorem Clean.snoc_event {σ : Type} {p : Proc σ} (h : Clean p) (s : σ) (evs : List Event)
    (hev : ∀ e ∈ evs, e.apiFailed = false) :
    Clean { world := s, trace := p.trace ++ evs, stdout := p.stdout } := by
  refine ⟨?_, h.2⟩
  intro e he
  rcases List.mem_append.1 he with h1 | h1
  · exact h.1 e h1
  · exact hev e h1

theorem noTable_snoc_text {l : List Output} (h : ∀ o ∈ l, o.isTable = false) (t : String) :
    ∀ o ∈ l ++ [Output.text t], o.isTable = false := by
  intro o ho
  rcases List.mem_append.1 ho with h1 | h1
  · exact h o h1
  · rw [List.mem_singleton.1 h1]; rfl

theorem sleepIfRateLimitExceeded_clean {σ : Type} (E : Env σ) (p : Proc σ) (h : Clean p) :
    Clean (sleepIfRateLimitExceeded E p) := by
  unfold sleepIfRateLimitExceeded
  split
  · refine ⟨?_, noTable_snoc_text h.2 _⟩
    exact (h.snoc_event p.world [Event.RateLimits false] (by simp [Event.apiFailed])).1
  · split
    · exact h.snoc_event _ _ (by simp [Event.apiFailed])
    · exact h.snoc_event _ _ (by simp [Event.apiFailed])

theorem GetUserInfo_guarded {σ : Type} (E : Env σ) (id : Int) (p : Proc σ) (h : Clean p) :
    (GetUserInfo E id p).Guarded := by
  have hs := sleepIfRateLimitExceeded_clean E p h
  unfold GetUserInfo
  simp only []
  split
  · exact ⟨by decide, noTable_snoc_text hs.2 _⟩
  · exact hs.snoc_event _ _ (by simp [Event.apiFailed])

theorem GetReviewedNumbers_guarded {σ : Type} (E : Env σ) (org repo author : String)
    (p : Proc σ) (h : Clean p) : (GetReviewedNumbers E org repo author p).Guarded := by
  have hs := sleepIfRateLimitExceeded_clean E p h
  unfold GetReviewedNumbers
  simp only []
  split
  · exact ⟨by decide, noTable_snoc_text hs.2 _⟩
  · exact hs.snoc_event _ _ (by simp [Event.apiFailed])

theorem mainLoop_guarded {σ : Type} (E : Env σ) (flags : Flags) (users : List User) :
    ∀ (contributes : List Contributes) (p : Proc σ), Clean p →
      (mainLoop E flags users contributes p).Guarded := by
  induction users with
  | nil => intro contributes p h; exact h
  | cons user rest ih =>
    intro contributes p h
    unfold mainLoop
    split
    · exact ⟨by decide, h.2⟩
    · rename_i id _
      have h1 := GetUserInfo_guarded E id p h
      split
      · rename_i code p1 heq
        rw [heq] at h1; exact h1
      · rename_i u p1 heq
        rw [heq] at h1
        split
        · exact ⟨by decide, h1.2⟩
        · rename_i login _
          have h2 := GetReviewedNumbers_guarded E flags.organization flags.repository login p1 h1
          split
          · rename_i code p2 heq2
            rw [heq2] at h2; exact h2
          · rename_i n p2 heq2
            rw [heq2] at h2
            exact ih _ p2 h2

theorem dataRows_of_noTable {σ : Type} (p : Proc σ) (h : ∀ o ∈ p.stdout, o.isTable = false) :
    dataRows p = [] := by
  unfold dataRows
  rw [List.flatten_eq_nil_iff]
  intro l hl
  obtain ⟨o, ho, rfl⟩ := List.mem_map.1 hl
  have := h o ho
  cases o with
  | text s => rfl
  | table lines => exact absurd this (by simp [Output.isTable])

/-- C7: when the member listing, a profile lookup or a review-count search returns an
error anywhere in the run, the process ends with a non-zero status, no table is printed
and there are no data rows. -/
theorem main_fails_without_rows {σ : Type} (E : Env σ) (flags : Flags) (s : σ)
    (herr : ∃ e ∈ (main E flags s).proc.trace, e.apiFailed = true) :
    (main E flags s).status ≠ 0 ∧ dataRows (main E flags s).proc = [] ∧
      ∀ o ∈ (main E flags s).proc.stdout, o.isTable = false := by
  have h0 : Clean (sleepIfRateLimitExceeded E (Proc.start s)) :=
    sleepIfRateLimitExceeded_clean E _
      ⟨fun e he => absurd he (List.not_mem_nil e), fun o ho => absurd ho (List.not_mem_nil o)⟩
  have key : (main E flags s).Guarded ∨
      ∃ p, Clean p ∧ ∃ cs, main E flags s = printContributes cs flags.output p := by
    unfold main GetOrgMembers
    simp only []
    split
    · rename_i err p heq
      left
      split at heq
      · cases heq
        exact ⟨by decide, noTable_snoc_text h0.2 _⟩
      · cases heq
    · rename_i users p heq
      have hp : Clean p := by
        split at heq
        · cases heq
        · cases heq
          exact h0.snoc_event _ _ (by simp [Event.apiFailed])
      have hl := mainLoop_guarded E flags users [] p hp
      split
      · rename_i code p1 heq1
        rw [heq1] at hl
        left; exact hl
      · rename_i cs p1 heq1
        rw [heq1] at hl
        right; exact ⟨p1, hl, cs, rfl⟩
  rcases key with hg | ⟨p, hp, cs, hmain⟩
  · generalize main E flags s = r at hg herr ⊢
    cases r with
    | ret v p =>
      obtain ⟨e, he, hf⟩ := herr
      have := hg.1 e he
      rw [this] at hf; exact absurd hf (by decide)
    | exit code p => exact ⟨hg.1, dataRows_of_noTable p hg.2, hg.2⟩
  · obtain ⟨e, he, hf⟩ := herr
    rw [hmain, printContributes_eq] at he
    have := hp.1 e he
    rw [this] at hf; exact absurd hf (by decide)

/-- C7 in the scenario where the second member's profile lookup fails after the first
member was processed, and in the one where listing the members fails. -/
theorem main_fails_without_rows_witness :
    ((main profileDown.env defaultFlags 0).status ≠ 0 ∧
      dataRows (main profileDown.env defaultFlags 0).proc = [] ∧
      ∀ o ∈ (main profileDown.env defaultFlags 0).proc.stdout, o.isTable = false) ∧
    (main profileDown.env defaultFlags 0).status = 1 ∧
    (main membersDown.env defaultFlags 0).status = 1 ∧
    dataRows (main membersDown.env defaultFlags 0).proc = [] :=
  ⟨main_fails_without_rows profileDown.env defaultFlags 0
      ⟨Event.GetByID 2 false, by decide, rfl⟩,
    by decide, by decide, by decide⟩

/-- C8 fails on the code: run with `--organization kubernetes`, `main` lists the members of
the constant `Organization` ("k8smeetup"), and then searches the reviews of that member
in the repository of the flag's organization. -/
theorem main_lists_constant_organization :
    (main twoOrgs.env { defaultFlags with organization := "kubernetes" } 0).proc.trace
      = [Event.RateLimits true,
          Event.ListMembers "k8smeetup" { Filter := "all", Role := "all" } true,
          Event.RateLimits true, Event.GetByID 8 true, Event.RateLimits true,
          Event.SearchIssues
            "is:pr repo:kubernetes/kubernetes.github.io reviewed-by:meetup-dev -author:meetup-dev"
            true] ∧
      Organization ≠ "kubernetes" := by
  decide

/-- C9 as stated fails: with a rate-limit endpoint that always returns an error the run
still lists the members, looks up every profile, runs every search, prints the table
and ends with status 0. -/
theorem main_survives_rate_limit_errors :
    (main rateLimitDown.env defaultFlags 0).status = 0 ∧
      (main rateLimitDown.env defaultFlags 0).proc.trace
        = [Event.RateLimits false,
            Event.ListMembers "k8smeetup" { Filter := "all", Role := "all" } true,
            Event.RateLimits false, Event.GetByID 1 true, Event.RateLimits false,
            Event.SearchIssues
              "is:pr repo:k8smeetup/kubernetes.github.io reviewed-by:A -author:A" true,
            Event.RateLimits false, Event.GetByID 2 true, Event.RateLimits false,
            Event.SearchIssues
              "is:pr repo:k8smeetup/kubernetes.github.io reviewed-by:B -author:B" true,
            Event.RateLimits false, Event.GetByID 3 true, Event.RateLimits false,
            Event.SearchIssues
              "is:pr repo:k8smeetup/kubernetes.github.io reviewed-by:C -author:C" true] ∧
      dataRows (main rateLimitDown.env defaultFlags 0).proc
        = ["A\tJane Doe\t<none>\tjane@x.com\t5\n", "C\t<none>\t<none>\t<none>\t2\n"] := by
  decide

/-- C9, amended: an error of the member listing, of a profile lookup or of a review-count
search ends the process with status 1 at once; an error of the rate-limit lookup in
`sleepIfRateLimitExceeded` does not: it is printed, no wait is requested, and the network
operation that follows is still performed. -/
theorem api_errors_fail_fast_except_rate_limit :
    (∀ (σ : Type) (E : Env σ) (flags : Flags) (s0 : σ) (err : Error) (s : σ),
      E.ListMembers Organization { Filter := "all", Role := "all" }
          (sleepIfRateLimitExceeded E (Proc.start s0)).world = (Except.error err, s) →
        main E flags s0 = Res.exit 1
          { world := s,
            trace := (sleepIfRateLimitExceeded E (Proc.start s0)).trace ++
              [Event.ListMembers Organization { Filter := "all", Role := "all" } false],
            stdout := (sleepIfRateLimitExceeded E (Proc.start s0)).stdout ++
              [Output.text ("Error get " ++ flags.organization ++ " origanization members: "
                ++ err)] }) ∧
    (∀ (σ : Type) (E : Env σ) (id : Int) (p : Proc σ) (err : Error) (s : σ),
      E.GetByID id (sleepIfRateLimitExceeded E p).world = (Except.error err, s) →
        GetUserInfo E id p = Res.exit 1
          { world := s,
            trace := (sleepIfRateLimitExceeded E p).trace ++ [Event.GetByID id false],
            stdout := (sleepIfRateLimitExceeded E p).stdout ++ [Output.text (err ++ "\n")] }) ∧
    (∀ (σ : Type) (E : Env σ) (org repo author : String) (p : Proc σ) (err : Error) (s : σ),
      E.SearchIssues ("is:pr repo:" ++ org ++ "/" ++ repo ++ " reviewed-by:" ++ author
          ++ " -author:" ++ author) (sleepIfRateLimitExceeded E p).world
          = (Except.error err, s) →
        GetReviewedNumbers E org repo author p = Res.exit 1
          { world := s,
            trace := (sleepIfRateLimitExceeded E p).trace ++ [Event.SearchIssues
              ("is:pr repo:" ++ org ++ "/" ++ repo ++ " reviewed-by:" ++ author
                ++ " -author:" ++ author) false],
            stdout := (sleepIfRateLimitExceeded E p).stdout ++ [Output.text (err ++ "\n")] }) ∧
    (∀ (σ : Type) (E : Env σ) (p : Proc σ) (err : Error) (s : σ),
      E.RateLimits p.world = (Except.error err, s) →
        sleepIfRateLimitExceeded E p =
            { world := s, trace := p.trace ++ [Event.RateLimits false],
              stdout := p.stdout ++
                [Output.text ("Problem in getting rate limit information " ++ err ++ "\n")] } ∧
          (∀ org, ∃ ok, (GetOrgMembers E org p).2.trace = p.trace ++
            [Event.RateLimits false,
              Event.ListMembers org { Filter := "all", Role := "all" } ok]) ∧
          (∀ id, ∃ ok, (GetUserInfo E id p).proc.trace = p.trace ++
            [Event.RateLimits false, Event.GetByID id ok]) ∧
          (∀ org repo author, ∃ ok, (GetReviewedNumbers E org repo author p).proc.trace
            = p.trace ++ [Event.RateLimits false, Event.SearchIssues
              ("is:pr repo:" ++ org ++ "/" ++ repo ++ " reviewed-by:" ++ author
                ++ " -author:" ++ author) ok])) := by
  refine ⟨?_, ?_, ?_, ?_⟩
  · intro σ E flags s0 err s h
    have h' : E.ListMembers Organization { Filter := "all", Role := "all" }
        (sleepIfRateLimitExceeded E { world := s0, trace := [], stdout := [] }).world
          = (Except.error err, s) := h
    simp only [main, GetOrgMembers, h', Proc.start]
  · intro σ E id p err s h
    simp only [GetUserInfo, h]
  · intro σ E org repo author p err s h
    simp only [GetReviewedNumbers, h]
  · intro σ E p err s h
    have hs : sleepIfRateLimitExceeded E p =
        { world := s, trace := p.trace ++ [Event.RateLimits false],
          stdout := p.stdout ++
            [Output.text ("Problem in getting rate limit information " ++ err ++ "\n")] } := by
      simp only [sleepIfRateLimitExceeded, h]
    refine ⟨hs, ?_, ?_, ?_⟩
    · intro org
      unfold GetOrgMembers
      simp only [hs]
      split
      · exact ⟨false, by simp⟩
      · exact ⟨true, by simp⟩
    · intro id
      unfold GetUserInfo
      simp only [hs]
      split
      · exact ⟨false, by simp [Res.proc]⟩
      · exact ⟨true, by simp [Res.proc]⟩
    · intro org repo author
      unfold GetReviewedNumbers
      simp only [hs]
      split
      · exact ⟨false, by simp [Res.proc]⟩
      · exact ⟨true, by simp [Res.proc]⟩

theorem isBreak_tab : isBreak '\t' = true := by decide

theorem isBreak_newline : isBreak '\n' = true := by decide

theorem step_plain (w : TabWriter) (st : TabState) (ch : Char) (h : isBreak ch = false) :
    TabState.step w st ch
      = { lines := st.lines, line := st.line, cell := st.cell ++ [ch], out := st.out } := by
  have hne : ¬ (ch = '\t' ∨ ch = '\x0b' ∨ ch = '\n' ∨ ch = '\x0c') := by
    intro hc
    rcases hc with h1 | h1 | h1 | h1 <;> (subst h1; revert h; decide)
  unfold TabState.step
  rw [if_neg hne]

theorem feed_plain (w : TabWriter) (l : List Char) (hl : PlainText l) :
    ∀ st : TabState, l.foldl (TabState.step w) st
      = { lines := st.lines, line := st.line, cell := st.cell ++ l, out := st.out } := by
  induction l with
  | nil => intro st; simp
  | cons ch rest ih =>
    intro st
    rw [List.foldl_cons, step_plain w st ch (hl ch (List.mem_cons_self _ _)),
      ih (fun c hc => hl c (List.mem_cons_of_mem _ hc))]
    simp

theorem step_tab (w : TabWriter) (st : TabState) :
    TabState.step w st '\t'
      = { lines := st.lines, line := st.line ++ [⟨st.cell, true⟩], cell := [], out := st.out } := by
  unfold TabState.step
  simp

theorem step_newline (w : TabWriter) (st : TabState) (h : st.line ≠ []) :
    TabState.step w st '\n'
      = { lines := st.lines ++ [st.line ++ [⟨st.cell, false⟩]], line := [], cell := [],
          out := st.out } := by
  unfold TabState.step
  simp [h]

/-- The cells of a line of five fields, as the writer cuts it. -/
theorem feed_row (w : TabWriter) (f0 f1 f2 f3 f4 : List Char) (h0 : PlainText f0)
    (h1 : PlainText f1) (h2 : PlainText f2) (h3 : PlainText f3) (h4 : PlainText f4)
    (lines : List (List Cell)) (out : List Char) :
    (f0 ++ '\t' :: (f1 ++ '\t' :: (f2 ++ '\t' :: (f3 ++ '\t' :: (f4 ++ ['\n']))))).foldl
        (TabState.step w) ⟨lines, [], [], out⟩
      = ⟨lines ++ [[⟨f0, true⟩, ⟨f1, true⟩, ⟨f2, true⟩, ⟨f3, true⟩, ⟨f4, false⟩]], [], [], out⟩ := by
  simp only [List.foldl_append, List.foldl_cons, List.foldl_nil, feed_plain w _ h0,
    feed_plain w _ h1, feed_plain w _ h2, feed_plain w _ h3, feed_plain w _ h4, step_tab,
    List.nil_append]
  rw [step_newline w _ (by simp)]
  simp

theorem feed_rows (w : TabWriter) (rs : List Fields) (hrs : ∀ r ∈ rs, r.Plain) :
    ∀ (lines : List (List Cell)) (out : List Char),
      ((rs.map fun r => r.text.data).flatten).foldl (TabState.step w) ⟨lines, [], [], out⟩
        = ⟨lines ++ rs.map Fields.cells, [], [], out⟩ := by
  induction rs with
  | nil => intro lines out; simp
  | cons r rest ih =>
    intro lines out
    obtain ⟨h0, h1, h2, h3, h4⟩ := hrs r (List.mem_cons_self _ _)
    have hr : r.text.data = r.a.data ++ '\t' :: (r.b.data ++ '\t' :: (r.c.data ++ '\t' ::
        (r.d.data ++ '\t' :: (r.e.data ++ ['\n'])))) := by
      simp [Fields.text]
    rw [List.map_cons, List.flatten_cons, List.foldl_append, hr,
      feed_row w _ _ _ _ _ h0 h1 h2 h3 h4, ih (fun x hx => hrs x (List.mem_cons_of_mem _ hx))]
    simp [Fields.cells]

theorem formatLoop_block (w : TabWriter)
    (deeper : List Nat → List (List Cell) → Bool → List Char) (widths : List Nat) :
    ∀ (ls block pending : List (List Cell)) (atEnd : Bool),
      (∀ l ∈ ls, widths.length + 1 < l.length) →
      formatLoop w deeper widths pending (some block) ls atEnd
        = deeper (widths ++ [blockWidth w widths.length (block ++ ls)]) (block ++ ls) atEnd := by
  intro ls
  induction ls with
  | nil => intro block pending atEnd _; simp [formatLoop]
  | cons l rest ih =>
    intro block pending atEnd h
    have hl := h l (List.mem_cons_self _ _)
    simp only [formatLoop, hl, if_true]
    rw [ih _ _ _ (fun x hx => h x (List.mem_cons_of_mem _ hx))]
    simp

theorem formatLoop_block_end (w : TabWriter)
    (deeper : List Nat → List (List Cell) → Bool → List Char) (widths : List Nat) :
    ∀ (ls block pending : List (List Cell)),
      (∀ l ∈ ls, widths.length + 1 < l.length) →
      formatLoop w deeper widths pending (some block) (ls ++ [[]]) true
        = deeper (widths ++ [blockWidth w widths.length (block ++ ls)]) (block ++ ls) false := by
  intro ls
  induction ls with
  | nil =>
    intro block pending _
    simp [formatLoop, writeLines, writeCells]
  | cons l rest ih =>
    intro block pending h
    have hl := h l (List.mem_cons_self _ _)
    have e : formatLoop w deeper widths pending (some block) (l :: (rest ++ [[]])) true
        = formatLoop w deeper widths pending (some (block ++ [l])) (rest ++ [[]]) true := by
      simp only [formatLoop, hl, if_true]
    rw [List.cons_append, e, ih _ _ (fun x hx => h x (List.mem_cons_of_mem _ hx))]
    simp

theorem formatLoop_none (w : TabWriter)
    (deeper : List Nat → List (List Cell) → Bool → List Char) (widths : List Nat) :
    ∀ (ls pending : List (List Cell)) (atEnd : Bool),
      (∀ l ∈ ls, ¬ widths.length + 1 < l.length) →
      formatLoop w deeper widths pending none ls atEnd
        = writeLines w widths (pending ++ ls) atEnd := by
  intro ls
  induction ls with
  | nil => intro pending atEnd _; simp [formatLoop]
  | cons l rest ih =>
    intro pending atEnd h
    have hl := h l (List.mem_cons_self _ _)
    simp only [formatLoop, hl, if_false]
    rw [ih _ _ (fun x hx => h x (List.mem_cons_of_mem _ hx))]
    simp

theorem format_rect (w : TabWriter) (L : List (List Cell)) (hL : L ≠ []) :
    ∀ (d : Nat) (widths : List Nat), (∀ l ∈ L, l.length = widths.length + d + 1) →
      format w (d + 1) widths L false
        = writeLines w (widths ++ (List.range d).map fun i => blockWidth w (widths.length + i) L)
            L false := by
  intro d
  induction d with
  | zero =>
    intro widths h
    simp only [format, List.range_zero, List.map_nil, List.append_nil]
    rw [formatLoop_none w _ widths L [] false (fun l hl => by rw [h l hl]; omega)]
    simp
  | succ d ih =>
    intro widths h
    obtain ⟨l0, ls, rfl⟩ := List.exists_cons_of_ne_nil hL
    have h0 : widths.length + 1 < l0.length := by
      rw [h l0 (List.mem_cons_self _ _)]; omega
    have hls : ∀ l ∈ ls, widths.length + 1 < l.length := by
      intro l hl
      rw [h l (List.mem_cons_of_mem _ hl)]; omega
    have hstep : format w (d + 1 + 1) widths (l0 :: ls) false
        = format w (d + 1) (widths ++ [blockWidth w widths.length (l0 :: ls)]) (l0 :: ls) false := by
      show formatLoop w (fun ws ls e => format w (d + 1) ws ls e) widths [] none (l0 :: ls) false
        = _
      have e1 : formatLoop w (fun ws ls e => format w (d + 1) ws ls e) widths [] none (l0 :: ls)
          false = writeLines w widths [] false
            ++ formatLoop w (fun ws ls e => format w (d + 1) ws ls e) widths [] (some [l0]) ls
              false := by
        simp only [formatLoop, h0, if_true]
      rw [e1, formatLoop_block w _ widths ls [l0] [] false hls]
      simp [writeLines]
    rw [hstep, ih _ (by
      intro l hl
      rw [h l hl, List.length_append, List.length_singleton]; omega)]
    congr 1
    rw [List.range_succ_eq_map, List.map_cons, List.map_map, List.append_assoc]
    simp only [List.length_append, List.length_singleton, List.singleton_append, Nat.add_zero]
    congr 2
    apply List.map_congr_left
    intro i _
    simp only [Function.comp, Nat.succ_eq_add_one]
    congr 1
    omega

theorem writeLines_false (w : TabWriter) (widths : List Nat) (L : List (List Cell)) :
    writeLines w widths L false = (L.map fun l => writeCells w widths 0 l ++ ['\n']).flatten := by
  induction L with
  | nil => rfl
  | cons l rest ih =>
    cases rest with
    | nil => simp [writeLines]
    | cons l2 rest2 =>
      have e : writeLines w widths (l :: l2 :: rest2) false
          = writeCells w widths 0 l ++ ['\n'] ++ writeLines w widths (l2 :: rest2) false := rfl
      rw [e, ih]
      simp

theorem maxCells_rows (rs : List Fields) (h : rs ≠ []) :
    maxCells (rs.map Fields.cells ++ [[]]) = 5 := by
  have aux : ∀ (l : List Fields) (a : Nat), 5 ≤ a →
      (l.map Fields.cells).foldl (fun n line => max n line.length) a = a := by
    intro l
    induction l with
    | nil => intro a _; rfl
    | cons r rest ih =>
      intro a ha
      rw [List.map_cons, List.foldl_cons]
      have : max a (Fields.cells r).length = a := by
        simp only [Fields.cells, List.length_cons, List.length_nil]; omega
      rw [this, ih a ha]
  obtain ⟨r, rest, rfl⟩ := List.exists_cons_of_ne_nil h
  unfold maxCells
  have : max 0 (Fields.cells r).length = 5 := by
    simp only [Fields.cells, List.length_cons, List.length_nil]; omega
  simp only [List.foldl_append, List.map_cons, List.foldl_cons, List.foldl_nil, this,
    aux rest 5 (le_refl _), List.length_nil]
  rfl

theorem blockWidth_eq (w : TabWriter) (hp : w.padding = tabwriterPadding)
    (hm : w.minwidth = tabwriterMinWidth) (rs : List Fields) (i : Nat) (g : Fields → String)
    (hg : ∀ r : Fields, ((r.cells).getD i ⟨[], false⟩).text = (g r).data) :
    blockWidth w i (rs.map Fields.cells) = columnWidth (rs.map g) := by
  unfold blockWidth columnWidth
  rw [hp, hm]
  generalize tabwriterMinWidth = acc
  induction rs generalizing acc with
  | nil => rfl
  | cons r rest ih =>
    simp only [List.map_cons, List.foldl_cons]
    rw [hg r]
    have e : (if (g r).data.length + tabwriterPadding > acc
        then (g r).data.length + tabwriterPadding else acc)
          = max acc ((g r).length + tabwriterPadding) := by
      have : (g r).length = (g r).data.length := rfl
      rw [this]
      split_ifs with h
      · omega
      · omega
    rw [e]
    exact ih _

theorem writeCells_row (w : TabWriter) (hc : w.padchar = ' ') (w0 w1 w2 w3 : Nat) (r : Fields) :
    writeCells w [w0, w1, w2, w3] 0 r.cells ++ ['\n']
      = (alignedRow w0 w1 w2 w3 r.a r.b r.c r.d r.e).data := by
  have hne : ¬ (' ' : Char) = '\t' := by decide
  have h0 : (0 : Nat) < 4 := by decide
  have h1 : (0 : Nat) + 1 < 4 := by decide
  have h2 : (0 : Nat) + 1 + 1 < 4 := by decide
  have h3 : (0 : Nat) + 1 + 1 + 1 < 4 := by decide
  have h4 : ¬ (0 : Nat) + 1 + 1 + 1 + 1 < 4 := by decide
  have hl : ([w0, w1, w2, w3] : List Nat).length = 4 := rfl
  have g0 : ([w0, w1, w2, w3] : List Nat).getD 0 0 = w0 := rfl
  have g1 : ([w0, w1, w2, w3] : List Nat).getD (0 + 1) 0 = w1 := rfl
  have g2 : ([w0, w1, w2, w3] : List Nat).getD (0 + 1 + 1) 0 = w2 := rfl
  have g3 : ([w0, w1, w2, w3] : List Nat).getD (0 + 1 + 1 + 1) 0 = w3 := rfl
  simp only [Fields.cells, writeCells, hl, h0, h1, h2, h3, h4, if_true, if_false, g0, g1, g2,
    g3, writePadding, hc, if_neg hne, alignedRow, padTo, String.data_append, String.length,
    List.append_nil, List.append_assoc]

/-- What the tab writer of `GetNewTabWriter` prints for lines of five plain fields: every
line aligned in four columns, each as wide as its widest cell plus 3 and at least 10. -/
theorem flush_rows (rs : List Fields) (hne : rs ≠ []) (hrs : ∀ r ∈ rs, r.Plain) :
    TabWriter.Flush { GetNewTabWriter with buf := rs.map Fields.text }
      = String.join (rs.map fun r =>
          alignedRow (columnWidth (rs.map Fields.a)) (columnWidth (rs.map Fields.b))
            (columnWidth (rs.map Fields.c)) (columnWidth (rs.map Fields.d))
            r.a r.b r.c r.d r.e) := by
  generalize hw : ({ GetNewTabWriter with buf := rs.map Fields.text } : TabWriter) = w
  have hbuf : w.buf = rs.map Fields.text := by rw [← hw]
  have hp : w.padding = tabwriterPadding := by rw [← hw]; rfl
  have hm : w.minwidth = tabwriterMinWidth := by rw [← hw]; rfl
  have hc : w.padchar = ' ' := by rw [← hw]; rfl
  apply String.ext
  rw [String.data_join]
  unfold TabWriter.Flush
  simp only []
  rw [hbuf, List.map_map]
  have hfeed : ((rs.map (String.data ∘ Fields.text)).flatten).foldl (TabState.step w)
      ⟨[], [], [], []⟩ = ⟨[] ++ rs.map Fields.cells, [], [], []⟩ := feed_rows w rs hrs [] []
  rw [hfeed]
  simp only [TabState.flush, List.isEmpty_nil, if_true, List.nil_append]
  rw [maxCells_rows rs hne]
  obtain ⟨r0, rest, hcons⟩ := List.exists_cons_of_ne_nil hne
  have hall : ∀ l ∈ rs.map Fields.cells, l.length = 5 := by
    intro l hl
    obtain ⟨r, _, rfl⟩ := List.mem_map.1 hl
    rfl
  have hL : rs.map Fields.cells ≠ [] := by rw [hcons]; simp
  have htop : format w 5 [] (rs.map Fields.cells ++ [[]]) true
      = format w 4 [blockWidth w 0 (rs.map Fields.cells)] (rs.map Fields.cells) false := by
    rw [hcons, List.map_cons, List.cons_append]
    show formatLoop w (fun ws ls e => format w 4 ws ls e) [] [] none
      (r0.cells :: (rest.map Fields.cells ++ [[]])) true = _
    have e1 : formatLoop w (fun ws ls e => format w 4 ws ls e) [] [] none
        (r0.cells :: (rest.map Fields.cells ++ [[]])) true
          = writeLines w [] [] false ++ formatLoop w (fun ws ls e => format w 4 ws ls e) [] []
              (some [r0.cells]) (rest.map Fields.cells ++ [[]]) true := by
      simp [formatLoop, Fields.cells]
    rw [e1, formatLoop_block_end w _ [] (rest.map Fields.cells) [r0.cells] []
      (by
        intro l hl
        obtain ⟨r, _, rfl⟩ := List.mem_map.1 hl
        simp [Fields.cells])]
    simp [writeLines]
  rw [htop, format_rect w _ hL 3 [blockWidth w 0 (rs.map Fields.cells)]
    (by intro l hl; rw [hall l hl]; rfl), writeLines_false]
  have hws : [blockWidth w 0 (rs.map Fields.cells)] ++ (List.range 3).map (fun i =>
      blockWidth w ([blockWidth w 0 (rs.map Fields.cells)].length + i) (rs.map Fields.cells))
        = [columnWidth (rs.map Fields.a), columnWidth (rs.map Fields.b),
            columnWidth (rs.map Fields.c), columnWidth (rs.map Fields.d)] := by
    have r3 : List.range 3 = [0, 1, 2] := by decide
    rw [r3]
    simp only [List.map_cons, List.map_nil, List.length_singleton, List.singleton_append]
    rw [blockWidth_eq w hp hm rs 0 Fields.a (fun _ => rfl),
      blockWidth_eq w hp hm rs (1 + 0) Fields.b (fun _ => rfl),
      blockWidth_eq w hp hm rs (1 + 1) Fields.c (fun _ => rfl),
      blockWidth_eq w hp hm rs (1 + 2) Fields.d (fun _ => rfl)]
  rw [hws, List.map_map, List.map_map]
  congr 1
  apply List.map_congr_left
  intro r _
  exact writeCells_row w hc _ _ _ _ r

theorem plainText_of_isPlain (s : String) (h : isPlain s = true) : PlainText s.data := by
  intro ch hch
  unfold isPlain at h
  rw [List.all_eq_true] at h
  simpa using h ch hch

theorem toDigitsCore_plain : ∀ (fuel n : Nat) (ds : List Char), PlainText ds →
    PlainText (Nat.toDigitsCore 10 fuel n ds) := by
  intro fuel
  induction fuel with
  | zero => intro n ds h; exact h
  | succ fuel ih =>
    intro n ds h
    have hd : isBreak (Nat.digitChar (n % 10)) = false := by
      have hlt : n % 10 < 10 := Nat.mod_lt _ (by decide)
      generalize n % 10 = m at hlt
      interval_cases m <;> decide
    have hcons : PlainText (Nat.digitChar (n % 10) :: ds) := by
      intro ch hch
      rcases List.mem_cons.1 hch with h1 | h1
      · rw [h1]; exact hd
      · exact h ch h1
    unfold Nat.toDigitsCore
    simp only []
    split_ifs
    · exact hcons
    · exact ih _ _ hcons

theorem plainText_toString_nat (n : Nat) : PlainText (toString n).data :=
  toDigitsCore_plain (n + 1) n [] (fun _ h => absurd h (List.not_mem_nil _))

theorem alignedRow_no_tab (w0 w1 w2 w3 : Nat) (r : Fields) (hr : r.Plain) :
    ∀ ch ∈ (alignedRow w0 w1 w2 w3 r.a r.b r.c r.d r.e).data, ch ≠ '\t' := by
  obtain ⟨h0, h1, h2, h3, h4⟩ := hr
  have hp : ∀ (l : List Char), PlainText l → ∀ ch ∈ l, ch ≠ '\t' := by
    intro l hl ch hch he
    have := hl ch hch
    rw [he] at this
    exact absurd this (by decide)
  have hs : ∀ (n : Nat), ∀ ch ∈ List.replicate n ' ', ch ≠ '\t' := by
    intro n ch hch
    rw [(List.mem_replicate.1 hch).2]
    decide
  intro ch hch
  simp only [alignedRow, padTo, String.data_append, List.mem_append] at hch
  rcases hch with (((((h | h) | (h | h)) | (h | h)) | (h | h)) | h) | h
  · exact hp _ h0 ch h
  · exact hs _ ch h
  · exact hp _ h1 ch h
  · exact hs _ ch h
  · exact hp _ h2 ch h
  · exact hs _ ch h
  · exact hp _ h3 ch h
  · exact hs _ ch h
  · exact hp _ h4 ch h
  · have : ch = '\n' := by simpa using h
    rw [this]; decide

theorem join_snoc (l : List String) (x : String) : String.join (l ++ [x]) = String.join l ++ x := by
  apply String.ext
  simp

theorem join_cons (x : String) (l : List String) : String.join (x :: l) = x ++ String.join l := by
  apply String.ext
  simp

theorem printed_fields_plain (contributes : List Contributes)
    (hplain : ∀ c ∈ contributes, 0 < c.reviews →
      isPlain c.login = true ∧ isPlain c.name = true ∧ isPlain c.company = true ∧
        isPlain c.email = true) :
    ∀ r ∈ headerFields :: ((sortSort byReviewdInterface contributes).filter
        fun c => decide (0 < c.reviews)).map Contributes.fields, r.Plain := by
  intro r hr
  rcases List.mem_cons.1 hr with h | h
  · rw [h]
    unfold Fields.Plain PlainText
    decide
  · obtain ⟨c, hc, rfl⟩ := List.mem_map.1 h
    have hmem := List.mem_filter.1 hc
    have hpos : 0 < c.reviews := by simpa using hmem.2
    obtain ⟨h0, h1, h2, h3⟩ := hplain c ((sortSort_perm contributes).mem_iff.1 hmem.1) hpos
    refine ⟨plainText_of_isPlain _ h0, plainText_of_isPlain _ h1, plainText_of_isPlain _ h2,
      plainText_of_isPlain _ h3, ?_⟩
    show PlainText (toString c.reviews).data
    rw [toString_of_pos c.reviews hpos]
    exact plainText_toString_nat _

/-- C4 as stated fails: for the member with name "Jane Doe", no company and email
"jane@x.com" the row reaches standard output aligned with spaces, without any tab. -/
theorem printContributes_prints_no_tab :
    (printContributes [⟨"login", "Jane Doe", "<none>", "jane@x.com", 7⟩] ""
        (Proc.start ())).proc.stdoutText
      = "Login     Name       Company   Email        Reviews\nlogin     Jane Doe   <none>    jane@x.com   7\n" ∧
    '\t' ∉ (printContributes [⟨"login", "Jane Doe", "<none>", "jane@x.com", 7⟩] ""
        (Proc.start ())).proc.stdoutText.data := by
  decide

/-- C4, amended: for a record with a positive review count the row written to the tab
writer is its login, name, company, email and decimal review count, in that order,
separated by single tabs; when no field of a printed record holds a tab, vertical tab,
newline or form feed, the writer prints the header and the rows with the same fields in
the same order, each of the first four followed by spaces up to the width of its column
(the widest cell plus 3, at least 10), and prints no tab. -/
theorem printContributes_row_rendering {σ : Type} (contributes : List Contributes)
    (output : String) (p : Proc σ) :
    (∀ c ∈ contributes, 0 < c.reviews →
      (c.login ++ "\t" ++ c.name ++ "\t" ++ c.company ++ "\t" ++ c.email ++ "\t"
        ++ toString c.reviews.toNat ++ "\n")
          ∈ dataRows (printContributes contributes output p).proc) ∧
    ((∀ c ∈ contributes, 0 < c.reviews →
        isPlain c.login = true ∧ isPlain c.name = true ∧ isPlain c.company = true ∧
          isPlain c.email = true) →
      ∃ (printed : List Contributes) (w0 w1 w2 w3 : Nat),
        printed = (sortSort byReviewdInterface contributes).filter
          (fun c => decide (0 < c.reviews)) ∧
        w0 = columnWidth ("Login" :: printed.map Contributes.login) ∧
        w1 = columnWidth ("Name" :: printed.map Contributes.name) ∧
        w2 = columnWidth ("Company" :: printed.map Contributes.company) ∧
        w3 = columnWidth ("Email" :: printed.map Contributes.email) ∧
        (printContributes contributes output p).proc.stdoutText
          = p.stdoutText ++ alignedRow w0 w1 w2 w3 "Login" "Name" "Company" "Email" "Reviews"
              ++ String.join (printed.map fun c =>
                alignedRow w0 w1 w2 w3 c.login c.name c.company c.email
                  (toString c.reviews.toNat)) ∧
        ∀ ch ∈ (alignedRow w0 w1 w2 w3 "Login" "Name" "Company" "Email" "Reviews"
              ++ String.join (printed.map fun c =>
                alignedRow w0 w1 w2 w3 c.login c.name c.company c.email
                  (toString c.reviews.toNat))).data, ch ≠ '\t') := by
  constructor
  · intro c hc hpos
    have hfmt : formatRow c = c.login ++ "\t" ++ c.name ++ "\t" ++ c.company ++ "\t" ++ c.email
        ++ "\t" ++ toString c.reviews.toNat ++ "\n" := by
      unfold formatRow
      rw [toString_of_pos c.reviews hpos]
    rw [← hfmt, printContributes_eq]
    simp only [Res.proc]
    rw [dataRows_append_table]
    apply List.mem_append_right
    apply List.mem_map_of_mem
    rw [List.mem_filter]
    exact ⟨(sortSort_perm contributes).mem_iff.2 hc, by simpa using hpos⟩
  · intro hplain
    have hrs := printed_fields_plain contributes hplain
    generalize hprinted : (sortSort byReviewdInterface contributes).filter
      (fun c => decide (0 < c.reviews)) = printed at hrs
    have hpos : ∀ c ∈ printed, 0 < c.reviews := by
      intro c hc
      rw [← hprinted] at hc
      simpa using (List.mem_filter.1 hc).2
    have hbuf : (String.intercalate "\t" headers ++ "\n") :: printed.map formatRow
        = (headerFields :: printed.map Contributes.fields).map Fields.text := by
      have hh : String.intercalate "\t" headers ++ "\n" = headerFields.text := by decide
      rw [List.map_cons, List.map_map, hh]
      rfl
    have hrows : printed.map (fun c => alignedRow
          (columnWidth ("Login" :: printed.map Contributes.login))
          (columnWidth ("Name" :: printed.map Contributes.name))
          (columnWidth ("Company" :: printed.map Contributes.company))
          (columnWidth ("Email" :: printed.map Contributes.email))
          c.login c.name c.company c.email (toString c.reviews.toNat))
        = (printed.map Contributes.fields).map (fun r => alignedRow
          (columnWidth ("Login" :: printed.map Contributes.login))
          (columnWidth ("Name" :: printed.map Contributes.name))
          (columnWidth ("Company" :: printed.map Contributes.company))
          (columnWidth ("Email" :: printed.map Contributes.email))
          r.a r.b r.c r.d r.e) := by
      rw [List.map_map]
      apply List.map_congr_left
      intro c hc
      simp only [Function.comp, Contributes.fields]
      rw [toString_of_pos c.reviews (hpos c hc)]
    have hflush := flush_rows (headerFields :: printed.map Contributes.fields)
      (List.cons_ne_nil _ _) hrs
    simp only [List.map_cons, List.map_map] at hflush
    have ha : printed.map (Fields.a ∘ Contributes.fields) = printed.map Contributes.login := rfl
    have hb : printed.map (Fields.b ∘ Contributes.fields) = printed.map Contributes.name := rfl
    have hc : printed.map (Fields.c ∘ Contributes.fields) = printed.map Contributes.company := rfl
    have hd : printed.map (Fields.d ∘ Contributes.fields) = printed.map Contributes.email := rfl
    rw [ha, hb, hc, hd, join_cons] at hflush
    refine ⟨printed, _, _, _, _, rfl, rfl, rfl, rfl, rfl, ?_, ?_⟩
    · rw [printContributes_eq, hprinted, hbuf]
      simp only [Res.proc, Proc.stdoutText, List.map_append, List.map_cons, List.map_nil,
        join_snoc, Output.bytes]
      rw [String.append_assoc, hrows]
      congr 1
      simp only [List.map_map]
      exact hflush
    · rw [hrows]
      intro ch hch
      rw [String.data_append, String.data_join, List.mem_append] at hch
      rcases hch with h | h
      · exact alignedRow_no_tab _ _ _ _ headerFields (hrs _ (List.mem_cons_self _ _)) ch h
      · rw [List.mem_flatten] at h
        obtain ⟨l, hl, hchl⟩ := h
        obtain ⟨s, hs, rfl⟩ := List.mem_map.1 hl
        obtain ⟨r, hr, rfl⟩ := List.mem_map.1 hs
        exact alignedRow_no_tab _ _ _ _ r (hrs _ (List.mem_cons_of_mem _ hr)) ch hchl

theorem formatLoop_congr (w : TabWriter)
    (d1 d2 : List Nat → List (List Cell) → Bool → List Char) (widths : List Nat) (bound : Nat)
    (hd : ∀ (ws : List Nat) (b : List (List Cell)) (e : Bool), ws.length = widths.length + 1 →
      (∀ l ∈ b, l.length ≤ bound) → d1 ws b e = d2 ws b e) :
    ∀ (ls pending : List (List Cell)) (block : Option (List (List Cell))) (atEnd : Bool),
      (∀ l ∈ ls, l.length ≤ bound) → (∀ b, block = some b → ∀ l ∈ b, l.length ≤ bound) →
      formatLoop w d1 widths pending block ls atEnd
        = formatLoop w d2 widths pending block ls atEnd := by
  intro ls
  induction ls with
  | nil =>
    intro pending block atEnd _ hb
    cases block with
    | none => simp [formatLoop]
    | some b =>
      simp only [formatLoop]
      exact hd _ b atEnd (by simp) (hb b rfl)
  | cons l rest ih =>
    intro pending block atEnd hls hb
    have hl := hls l (List.mem_cons_self _ _)
    have hrest : ∀ x ∈ rest, x.length ≤ bound := fun x hx => hls x (List.mem_cons_of_mem _ hx)
    cases block with
    | none =>
      simp only [formatLoop]
      split_ifs
      · rw [ih [] (some [l]) atEnd hrest (by
          intro b hbe x hx
          cases hbe
          rw [List.mem_singleton.1 hx]; exact hl)]
      · exact ih _ none atEnd hrest (fun b hbe => by cases hbe)
    | some b =>
      simp only [formatLoop]
      split_ifs
      · exact ih _ (some (b ++ [l])) atEnd hrest (by
          intro b' hbe x hx
          cases hbe
          rcases List.mem_append.1 hx with h | h
          · exact hb b rfl x h
          · rw [List.mem_singleton.1 h]; exact hl)
      · rw [hd _ b false (by simp) (hb b rfl), ih [l] none atEnd hrest (fun b hbe => by cases hbe)]

/-- One level of recursion for each column is enough: with the lines no longer than the
columns already fixed plus the depth, a deeper bound changes nothing. -/
theorem format_depth_enough (w : TabWriter) :
    ∀ (depth : Nat) (widths : List Nat) (lines : List (List Cell)) (atEnd : Bool),
      (∀ l ∈ lines, l.length ≤ widths.length + depth) →
      format w (depth + 1) widths lines atEnd = format w depth widths lines atEnd := by
  intro depth
  induction depth with
  | zero =>
    intro widths lines atEnd h
    simp only [format]
    rw [formatLoop_none w _ widths lines [] atEnd (fun l hl => by have := h l hl; omega)]
    simp
  | succ depth ih =>
    intro widths lines atEnd h
    show formatLoop w (fun ws ls e => format w (depth + 1) ws ls e) widths [] none lines atEnd
      = formatLoop w (fun ws ls e => format w depth ws ls e) widths [] none lines atEnd
    apply formatLoop_congr w _ _ widths (widths.length + (depth + 1)) _ lines [] none atEnd h
      (fun b hbe => by cases hbe)
    intro ws b e hws hb
    exact ih ws b e (fun l hl => by have := hb l hl; omega)

theorem le_maxCells (lines : List (List Cell)) : ∀ l ∈ lines, l.length ≤ maxCells lines := by
  have aux : ∀ (ls : List (List Cell)) (a : Nat),
      a ≤ ls.foldl (fun n line => max n line.length) a ∧
        ∀ l ∈ ls, l.length ≤ ls.foldl (fun n line => max n line.length) a := by
    intro ls
    induction ls with
    | nil => intro a; exact ⟨le_refl a, fun l hl => absurd hl (List.not_mem_nil l)⟩
    | cons x rest ih =>
      intro a
      obtain ⟨h1, h2⟩ := ih (max a x.length)
      rw [List.foldl_cons]
      refine ⟨le_trans (le_max_left _ _) h1, ?_⟩
      intro l hl
      rcases List.mem_cons.1 hl with h | h
      · rw [h]; exact le_trans (le_max_right _ _) h1
      · exact h2 l h
  exact (aux lines 0).2

/-- The depth `Flush` gives `format`, the length of the longest line, is enough: any
greater depth gives the same text. -/
theorem format_maxCells_enough (w : TabWriter) (lines : List (List Cell)) (atEnd : Bool) :
    ∀ extra : Nat, format w (maxCells lines + extra) [] lines atEnd
      = format w (maxCells lines) [] lines atEnd := by
  intro extra
  induction extra with
  | zero => rfl
  | succ n ih =>
    rw [← ih]
    exact format_depth_enough w (maxCells lines + n) [] lines atEnd
      (fun l hl => by have := le_maxCells lines l hl; simp only [List.length_nil]; omega)

/-- C4 amended, at the member with name "Jane Doe", no company and email "jane@x.com": the
row written is tab-separated, the row printed is aligned in columns of widths 10, 11, 10
and 13. -/
theorem printContributes_row_rendering_witness :
    ("login\tJane Doe\t<none>\tjane@x.com\t7\n"
        ∈ dataRows (printContributes [janeDoe] "" (Proc.start ())).proc ∧
      ∃ (printed : List Contributes) (w0 w1 w2 w3 : Nat),
        printed = (sortSort byReviewdInterface [janeDoe]).filter
          (fun c => decide (0 < c.reviews)) ∧
        w0 = columnWidth ("Login" :: printed.map Contributes.login) ∧
        w1 = columnWidth ("Name" :: printed.map Contributes.name) ∧
        w2 = columnWidth ("Company" :: printed.map Contributes.company) ∧
        w3 = columnWidth ("Email" :: printed.map Contributes.email) ∧
        (printContributes [janeDoe] "" (Proc.start ())).proc.stdoutText
          = (Proc.start ()).stdoutText
              ++ alignedRow w0 w1 w2 w3 "Login" "Name" "Company" "Email" "Reviews"
              ++ String.join (printed.map fun c =>
                alignedRow w0 w1 w2 w3 c.login c.name c.company c.email
                  (toString c.reviews.toNat)) ∧
        ∀ ch ∈ (alignedRow w0 w1 w2 w3 "Login" "Name" "Company" "Email" "Reviews"
              ++ String.join (printed.map fun c =>
                alignedRow w0 w1 w2 w3 c.login c.name c.company c.email
                  (toString c.reviews.toNat))).data, ch ≠ '\t') ∧
    janeDoe = ⟨"login", "Jane Doe", "<none>", "jane@x.com", 7⟩ ∧
    columnWidth ["Login", "login"] = 10 ∧ columnWidth ["Name", "Jane Doe"] = 11 ∧
    columnWidth ["Company", "<none>"] = 10 ∧ columnWidth ["Email", "jane@x.com"] = 13 ∧
    alignedRow 10 11 10 13 "login" "Jane Doe" "<none>" "jane@x.com" "7"
      = "login     Jane Doe   <none>    jane@x.com   7\n" :=
  ⟨⟨(printContributes_row_rendering [janeDoe] "" (Proc.start ())).1 janeDoe
        (List.mem_singleton.2 rfl) (by decide),
      (printContributes_row_rendering [janeDoe] "" (Proc.start ())).2
        (by
          intro c hc _
          rw [List.mem_singleton.1 hc]
          decide)⟩,
    rfl, by decide, by decide, by decide, by decide, by decide⟩

end K8smeetup
